import Mathlib

/-!
Verification of the tBTC v2 bridge natural-language specification against the
repository sources: the TypeScript MockBridge (redemption keys and redemption
lookups), the Solidity MockBridge (deposit reveal and sweep), the moving-funds
test fixtures, and the Bitcoin address conversion helpers.

Byte sequences are modelled as lists of naturals, each below 256.  Hex strings
(the transport format used throughout the TypeScript sources) are modelled as
lists of nibble values.  Cryptographic hash functions (keccak256, double
SHA-256) are parameters of the embedding: the development proves byte-layout
and state-machine properties that hold for every choice of hash function.
-/

namespace TbtcSpec

/-! ## Hex string transport

The TypeScript sources move bytes around as unprefixed hex strings and convert
with Buffer.from(hex) and buffer.toString(hex).  A hex string is modelled as
the list of its nibble values. -/

/-- Hex encoding of a single byte: the high and low nibble, in order, as
produced by buffer.toString(hex) for one byte. -/
def hexEncodeByte (b : Nat) : List Nat :=
  [b / 16, b % 16]

/-- Hex encoding of a byte buffer as a nibble sequence. -/
def hexEncode (bs : List Nat) : List Nat :=
  (bs.map hexEncodeByte).flatten

/-- Hex decoding: consecutive nibble pairs become bytes and a trailing lone
nibble is dropped, mirroring Buffer.from(str, hex). -/
def hexDecode : List Nat → List Nat
  | hi :: lo :: rest => (hi * 16 + lo) :: hexDecode rest
  | _ => []

theorem hexDecode_hexEncode (bs : List Nat) (h : ∀ b ∈ bs, b < 256) :
    hexDecode (hexEncode bs) = bs := by
  induction bs with
  | nil => rfl
  | cons b rest ih =>
    have hb : b < 256 := h b (List.mem_cons_self b rest)
    have hrest : ∀ x ∈ rest, x < 256 := fun x hx => h x (List.mem_cons_of_mem b hx)
    simp only [hexEncode, List.map_cons, List.flatten_cons, hexEncodeByte] at *
    simp only [List.cons_append, List.nil_append, hexDecode]
    rw [show b / 16 * 16 + b % 16 = b from by omega]
    exact congrArg (b :: ·) (ih hrest)

/-! ## Redemption keys (TypeScript MockBridge)

MockBridge.buildRedemptionKey receives the wallet public key hash and the
redeemer output script as unprefixed hex strings, re-encodes the script with a
one-byte length before it, and derives the key with two nested
solidityKeccak256 calls. -/

/-- Model of ethers utils.solidityKeccak256: each argument is an 0x-prefixed
hex string (modelled as its nibble sequence); the arguments are tightly packed
into one byte buffer, which is hashed with keccak256. -/
def solidityKeccak256 (keccak : List Nat → List Nat) (args : List (List Nat)) :
    List Nat :=
  keccak (args.map hexDecode).flatten

/-- MockBridge.buildRedemptionKey: builds the prefixed output script
Buffer.concat([Buffer.from([rawOutputScript.length]), rawOutputScript]) as a
hex string and returns
solidityKeccak256([bytes32, bytes20], [solidityKeccak256([bytes],
[prefixedOutputScript]), prefixedWalletPubKeyHash]).  Buffer.from truncates
a length above 255 to its low byte. -/
def buildRedemptionKey (keccak : List Nat → List Nat)
    (walletPubKeyHash redeemerOutputScript : List Nat) : List Nat :=
  let prefixedWalletPubKeyHash := walletPubKeyHash
  let rawOutputScript := hexDecode redeemerOutputScript
  let prefixedOutputScript := hexEncode ((rawOutputScript.length % 256) :: rawOutputScript)
  solidityKeccak256 keccak
    [hexEncode (solidityKeccak256 keccak [prefixedOutputScript]),
     prefixedWalletPubKeyHash]

/-- Shared layout lemma: on hex-encoded byte inputs, buildRedemptionKey
reduces to the double keccak over the length-prefixed script and the wallet
public key hash. -/
theorem buildRedemptionKey_bytes (keccak : List Nat → List Nat)
    (wpkh script : List Nat)
    (hkeccak : ∀ x, ∀ b ∈ keccak x, b < 256)
    (hw : ∀ b ∈ wpkh, b < 256)
    (hs : ∀ b ∈ script, b < 256) (hslen : script.length < 256) :
    buildRedemptionKey keccak (hexEncode wpkh) (hexEncode script)
      = keccak (keccak (script.length :: script) ++ wpkh) := by
  have hpre : ∀ b ∈ script.length :: script, b < 256 := by
    intro b hb
    rcases List.mem_cons.mp hb with h | h
    · omega
    · exact hs b h
  simp only [buildRedemptionKey, solidityKeccak256, List.map_cons, List.map_nil,
    List.flatten_cons, List.flatten_nil, List.append_nil]
  rw [hexDecode_hexEncode script hs, Nat.mod_eq_of_lt hslen]
  rw [hexDecode_hexEncode (script.length :: script) hpre]
  rw [hexDecode_hexEncode (keccak (script.length :: script))
    (hkeccak (script.length :: script))]
  rw [hexDecode_hexEncode wpkh hw]

/-- C1: for every 20-byte wallet public key hash and every redeemer output
script, the redemption key computed by buildRedemptionKey equals
keccak256(keccak256(lengthByte of script followed by script) followed by the
wallet public key hash): the inner hash is over the 1-byte-length-prefixed raw
script bytes, the outer hash over the 32-byte inner hash followed by the
20-byte wallet public key hash. -/
theorem c1_buildRedemptionKey_layout (keccak : List Nat → List Nat)
    (wpkh script : List Nat)
    (hkeccak : ∀ x, ∀ b ∈ keccak x, b < 256)
    (hw : ∀ b ∈ wpkh, b < 256) (hw20 : wpkh.length = 20)
    (hs : ∀ b ∈ script, b < 256) (hslen : script.length < 256) :
    buildRedemptionKey keccak (hexEncode wpkh) (hexEncode script)
      = keccak (keccak (script.length :: script) ++ wpkh) :=
  buildRedemptionKey_bytes keccak wpkh script hkeccak hw hs hslen

/-- C1 witness: the layout theorem applied to a concrete wallet public key
hash, script and hash function. -/
theorem c1_buildRedemptionKey_layout_witness :
    buildRedemptionKey (fun x => [x.length % 256])
        (hexEncode (List.replicate 20 7)) (hexEncode [0, 20])
      = (fun x : List Nat => [x.length % 256])
          ((fun x : List Nat => [x.length % 256]) (([0, 20].length : Nat) :: [0, 20])
            ++ List.replicate 20 7) :=
  c1_buildRedemptionKey_layout (fun x => [x.length % 256])
    (List.replicate 20 7) [0, 20]
    (by intro x b hb; simp at hb; omega)
    (by intro b hb; simp at hb; omega)
    (by simp)
    (by intro b hb; simp at hb; omega)
    (by simp)

/-! ## Purity and length separation of redemption keys (C8)

The no-collision half of the claim is relative to collision resistance of the
hash: it is proved for every injective choice of the keccak parameter, by
showing the hashed byte layouts themselves differ whenever the script lengths
differ.  A concrete injective byte-valued function witnesses the theorem. -/

/-- A concrete injective function from byte lists to byte lists: every entry
is encoded in unary as a run of ones closed by a zero. -/
def unaryCode (x : List Nat) : List Nat :=
  (x.map (fun n => List.replicate n 1 ++ [0])).flatten

theorem unaryCode_cons (n : Nat) (xs : List Nat) :
    unaryCode (n :: xs) = List.replicate n 1 ++ 0 :: unaryCode xs := by
  simp [unaryCode, List.append_assoc]

theorem unaryBlock_inj (a : Nat) : ∀ (b : Nat) (u v : List Nat),
    List.replicate a 1 ++ 0 :: u = List.replicate b 1 ++ 0 :: v →
      a = b ∧ u = v := by
  induction a with
  | zero =>
    intro b u v h
    cases b with
    | zero => simpa using h
    | succ b => simp [List.replicate_succ] at h
  | succ a ih =>
    intro b u v h
    cases b with
    | zero => simp [List.replicate_succ] at h
    | succ b =>
      simp only [List.replicate_succ, List.cons_append, List.cons.injEq, true_and] at h
      rcases ih b u v h with ⟨h1, h2⟩
      exact ⟨by omega, h2⟩

theorem unaryCode_injective : Function.Injective unaryCode := by
  intro x y h
  induction x generalizing y with
  | nil =>
    cases y with
    | nil => rfl
    | cons m ys =>
      rw [unaryCode_cons] at h
      have hlen : (unaryCode []).length = (List.replicate m 1 ++ 0 :: unaryCode ys).length :=
        congrArg List.length h
      exact absurd hlen (by simp [unaryCode]; omega)
  | cons n xs ih =>
    cases y with
    | nil =>
      rw [unaryCode_cons] at h
      have hlen : (List.replicate n 1 ++ 0 :: unaryCode xs).length = (unaryCode []).length :=
        congrArg List.length h
      exact absurd hlen (by simp [unaryCode])
    | cons m ys =>
      rw [unaryCode_cons, unaryCode_cons] at h
      rcases unaryBlock_inj n m (unaryCode xs) (unaryCode ys) h with ⟨h1, h2⟩
      rw [h1, ih h2]

theorem unaryCode_bytes : ∀ x : List Nat, ∀ b ∈ unaryCode x, b < 256 := by
  intro x b hb
  induction x with
  | nil => simp [unaryCode] at hb
  | cons n xs ih =>
    rw [unaryCode_cons] at hb
    rcases List.mem_append.mp hb with h | h
    · have := List.eq_of_mem_replicate h
      omega
    · rcases List.mem_cons.mp h with h | h
      · omega
      · exact ih h

/-- C8: redemption key derivation is pure, and, whenever the keccak parameter
is injective, two redeemer output scripts of different byte lengths never
yield the same key for a fixed wallet public key hash, including the case
where the shorter script is a byte prefix of the longer one. -/
theorem c8_redemptionKey_pure_and_length_separated (keccak : List Nat → List Nat)
    (hkeccak : ∀ x, ∀ b ∈ keccak x, b < 256)
    (hinj : Function.Injective keccak)
    (wpkh s1 s2 : List Nat)
    (hw : ∀ b ∈ wpkh, b < 256)
    (hs1 : ∀ b ∈ s1, b < 256) (hs2 : ∀ b ∈ s2, b < 256)
    (hl1 : s1.length < 256) (hl2 : s2.length < 256)
    (hne : s1.length ≠ s2.length) :
    (∀ w1 w2 t1 t2 : List Nat, w1 = w2 → t1 = t2 →
        buildRedemptionKey keccak w1 t1 = buildRedemptionKey keccak w2 t2)
    ∧ buildRedemptionKey keccak (hexEncode wpkh) (hexEncode s1)
        ≠ buildRedemptionKey keccak (hexEncode wpkh) (hexEncode s2) := by
  constructor
  · intro w1 w2 t1 t2 hw12 ht12
    rw [hw12, ht12]
  · intro h
    rw [buildRedemptionKey_bytes keccak wpkh s1 hkeccak hw hs1 hl1,
      buildRedemptionKey_bytes keccak wpkh s2 hkeccak hw hs2 hl2] at h
    have h2 := hinj h
    have h3 := List.append_cancel_right h2
    have h4 := hinj h3
    have h5 : s1.length = s2.length := (List.cons.injEq _ _ _ _ ▸ h4).1
    exact hne h5

/-- C8 witness: the theorem applied to the concrete injective unary code, an
empty wallet public key hash, the empty script and the one-byte script whose
bytes extend the empty one. -/
theorem c8_redemptionKey_pure_and_length_separated_witness :
    ([] : List Nat).length ≠ [0].length
    ∧ ((∀ w1 w2 t1 t2 : List Nat, w1 = w2 → t1 = t2 →
          buildRedemptionKey unaryCode w1 t1 = buildRedemptionKey unaryCode w2 t2)
        ∧ buildRedemptionKey unaryCode (hexEncode []) (hexEncode [])
            ≠ buildRedemptionKey unaryCode (hexEncode []) (hexEncode [0])) :=
  ⟨by decide,
   c8_redemptionKey_pure_and_length_separated unaryCode unaryCode_bytes
     unaryCode_injective [] [] [0]
     (by intro b hb; simp at hb)
     (by intro b hb; simp at hb)
     (by intro b hb; simp at hb; omega)
     (by decide) (by decide) (by decide)⟩

/-! ## Redemption lookups on the TypeScript MockBridge (C2)

MockBridge keeps pending and timed-out redemption requests in maps keyed by
the redemption key.  The private redemptions helper returns the stored request
or, when the key is absent, a zeroed record simulating the missing-key reads
of a smart contract mapping. -/

/-- Chain identifier wrapper mirroring the Identifier interface: an
unprefixed hex string, modelled as nibbles. -/
structure EthIdentifier where
  identifierHex : List Nat
deriving DecidableEq

/-- RedemptionRequest record as used by the TypeScript MockBridge. -/
structure RedemptionRequest where
  redeemer : EthIdentifier
  redeemerOutputScript : List Nat
  requestedAmount : Nat
  treasuryFee : Nat
  txMaxFee : Nat
  requestedAt : Nat
deriving DecidableEq

/-- ethers constants.AddressZero: forty zero nibbles. -/
def addressZero : EthIdentifier :=
  ⟨List.replicate 40 0⟩

/-- The zeroed record returned on a missing redemption key. -/
def zeroRedemptionRequest : RedemptionRequest :=
  { redeemer := addressZero
    redeemerOutputScript := []
    requestedAmount := 0
    treasuryFee := 0
    txMaxFee := 0
    requestedAt := 0 }

/-- State of the TypeScript MockBridge: the two redemption maps. -/
structure MockBridgeState where
  _pendingRedemptions : List (List Nat × RedemptionRequest)
  _timedOutRedemptions : List (List Nat × RedemptionRequest)

/-- MockBridge.redemptions: builds the redemption key and returns the stored
request if the map has the key, and the zeroed record otherwise. -/
def redemptions (keccak : List Nat → List Nat)
    (walletPubKeyHash redeemerOutputScript : List Nat)
    (redemptionsMap : List (List Nat × RedemptionRequest)) : RedemptionRequest :=
  let redemptionKey := buildRedemptionKey keccak walletPubKeyHash redeemerOutputScript
  match redemptionsMap.lookup redemptionKey with
  | some r => r
  | none => zeroRedemptionRequest

/-- MockBridge.pendingRedemptions delegates to redemptions on the pending
map. -/
def pendingRedemptions (keccak : List Nat → List Nat) (st : MockBridgeState)
    (walletPubKeyHash redeemerOutputScript : List Nat) : RedemptionRequest :=
  redemptions keccak walletPubKeyHash redeemerOutputScript st._pendingRedemptions

/-- MockBridge.timedOutRedemptions delegates to redemptions on the timed-out
map. -/
def timedOutRedemptions (keccak : List Nat → List Nat) (st : MockBridgeState)
    (walletPubKeyHash redeemerOutputScript : List Nat) : RedemptionRequest :=
  redemptions keccak walletPubKeyHash redeemerOutputScript st._timedOutRedemptions

/-- Modelled from the spec: the on-chain Bridge redemption-proof processing is
not among the sources; per the spec a successful redemption proof closes
(deletes from pending) each satisfied request.  This models closing the
pending request stored under the redemption key of the given wallet and
redeemer output script. -/
def closeRedemptionRequest (keccak : List Nat → List Nat) (st : MockBridgeState)
    (walletPubKeyHash redeemerOutputScript : List Nat) : MockBridgeState :=
  let redemptionKey := buildRedemptionKey keccak walletPubKeyHash redeemerOutputScript
  let remaining := st._pendingRedemptions.filter (fun e => !(e.1 == redemptionKey))
  { st with _pendingRedemptions := remaining }

theorem lookup_filter_out_key (l : List (List Nat × RedemptionRequest)) (k : List Nat) :
    (l.filter (fun e => !(e.1 == k))).lookup k = none := by
  induction l with
  | nil => rfl
  | cons e rest ih =>
    by_cases h : e.1 = k
    · simp [List.filter_cons, h, ih]
    · have h1 : (e.1 == k) = false := beq_false_of_ne h
      have h2 : (k == e.1) = false := beq_false_of_ne (Ne.symm h)
      simp [List.filter_cons, h1, List.lookup, h2, ih]

/-- C2: when the queried redemption key has no entry in the corresponding
map, pendingRedemptions and timedOutRedemptions return the defined zero
record (zero redeemer address, empty output script, zero amounts and fees,
requestedAt zero) instead of failing; and after the pending request is
closed by a successful redemption proof, the pendingRedemptions lookup for
that key returns the same zero record. -/
theorem c2_redemptions_zero_sentinel (keccak : List Nat → List Nat)
    (st : MockBridgeState) (walletPubKeyHash redeemerOutputScript : List Nat)
    (hp : st._pendingRedemptions.lookup
      (buildRedemptionKey keccak walletPubKeyHash redeemerOutputScript) = none)
    (ht : st._timedOutRedemptions.lookup
      (buildRedemptionKey keccak walletPubKeyHash redeemerOutputScript) = none) :
    pendingRedemptions keccak st walletPubKeyHash redeemerOutputScript
        = zeroRedemptionRequest
    ∧ timedOutRedemptions keccak st walletPubKeyHash redeemerOutputScript
        = zeroRedemptionRequest
    ∧ zeroRedemptionRequest.redeemer = addressZero
    ∧ zeroRedemptionRequest.redeemerOutputScript = []
    ∧ zeroRedemptionRequest.requestedAmount = 0
    ∧ zeroRedemptionRequest.treasuryFee = 0
    ∧ zeroRedemptionRequest.txMaxFee = 0
    ∧ zeroRedemptionRequest.requestedAt = 0
    ∧ ∀ st2 : MockBridgeState,
        pendingRedemptions keccak (closeRedemptionRequest keccak st2 walletPubKeyHash redeemerOutputScript)
          walletPubKeyHash redeemerOutputScript = zeroRedemptionRequest := by
  refine ⟨?_, ?_, rfl, rfl, rfl, rfl, rfl, rfl, ?_⟩
  · simp [pendingRedemptions, redemptions, hp]
  · simp [timedOutRedemptions, redemptions, ht]
  · intro st2
    simp [pendingRedemptions, closeRedemptionRequest, redemptions,
      lookup_filter_out_key]

/-- C2 witness: the sentinel theorem applied to the empty bridge state, a
concrete hash function, wallet public key hash and output script. -/
theorem c2_redemptions_zero_sentinel_witness :
    pendingRedemptions (fun _ => []) ⟨[], []⟩ [] [] = zeroRedemptionRequest
    ∧ timedOutRedemptions (fun _ => []) ⟨[], []⟩ [] [] = zeroRedemptionRequest
    ∧ zeroRedemptionRequest.redeemer = addressZero
    ∧ zeroRedemptionRequest.redeemerOutputScript = []
    ∧ zeroRedemptionRequest.requestedAmount = 0
    ∧ zeroRedemptionRequest.treasuryFee = 0
    ∧ zeroRedemptionRequest.txMaxFee = 0
    ∧ zeroRedemptionRequest.requestedAt = 0
    ∧ ∀ st2 : MockBridgeState,
        pendingRedemptions (fun _ => []) (closeRedemptionRequest (fun _ => []) st2 [] [])
          [] [] = zeroRedemptionRequest :=
  c2_redemptions_zero_sentinel (fun _ => []) ⟨[], []⟩ [] [] rfl rfl

/-! ## Bitcoin output vector parsing (BTCUtils)

The Solidity MockBridge extracts the funding output with
BTCUtils.extractOutputAtIndex and reads its value with
BTCUtils.extractValue.  Failure paths (out-of-range reads, malformed
VarInts) are modelled with Option. -/

/-- Little-endian byte sequence to number, as
bytesToUint(reverseEndianness(bytes)). -/
def readLE : List Nat → Nat
  | [] => 0
  | b :: rest => b + 256 * readLE rest

/-- BTCUtils.parseVarInt: reads the Bitcoin CompactSize integer at the head
of the buffer, returning the number of extra data bytes and the value, or
failing on an overrun. -/
def parseVarInt (b : List Nat) : Option (Nat × Nat) :=
  match b with
  | [] => none
  | first :: rest =>
    if first < 0xfd then some (0, first)
    else
      let dataLen := if first = 0xfd then 2 else if first = 0xfe then 4 else 8
      if rest.length < dataLen then none
      else some (dataLen, readLE (rest.take dataLen))

/-- BTCUtils.determineOutputLength: the serialized length of the output at
the head of the buffer: 8 value bytes, the script-length VarInt, and the
script itself. -/
def determineOutputLength (output : List Nat) : Option Nat :=
  if output.length < 9 then none
  else
    match parseVarInt (output.drop 8) with
    | none => none
    | some (varIntDataLen, scriptLen) => some (8 + 1 + varIntDataLen + scriptLen)

/-- Loop of BTCUtils.extractOutputAtIndex: skip index outputs from the given
offset, then slice the next output. -/
def extractOutputAtIndexAux (vout : List Nat) (offset : Nat) : Nat → Option (List Nat)
  | 0 =>
    match determineOutputLength (vout.drop offset) with
    | none => none
    | some len =>
      if offset + len ≤ vout.length then some ((vout.drop offset).take len) else none
  | i + 1 =>
    match determineOutputLength (vout.drop offset) with
    | none => none
    | some len => extractOutputAtIndexAux vout (offset + len) i

/-- BTCUtils.extractOutputAtIndex: parses the output-count VarInt, requires
the index to be in range, then walks the outputs. -/
def extractOutputAtIndex (vout : List Nat) (index : Nat) : Option (List Nat) :=
  match parseVarInt vout with
  | none => none
  | some (varIntDataLen, nOuts) =>
    if index < nOuts then extractOutputAtIndexAux vout (1 + varIntDataLen) index
    else none

/-- BTCUtils.extractValue: the output value is the first 8 bytes,
little-endian. -/
def extractValue (output : List Nat) : Nat :=
  readLE (output.take 8)

/-! ## Solidity MockBridge: deposit reveal and sweep (C4, C7, C9) -/

/-- IBridgeTypes.BitcoinTxInfo: the four serialized transaction fields. -/
structure BitcoinTxInfo where
  version : List Nat
  inputVector : List Nat
  outputVector : List Nat
  locktime : List Nat

/-- IBridgeTypes.DepositRevealInfo, restricted to the fields the MockBridge
reads. -/
structure DepositRevealInfo where
  fundingOutputIndex : Nat
  walletPubKeyHash : List Nat
  vault : Nat

/-- IBridgeTypes.DepositRequest. -/
structure DepositRequest where
  depositor : Nat
  amount : Nat
  revealedAt : Nat
  vault : Nat
  treasuryFee : Nat
  sweptAt : Nat
  extraData : Nat
deriving DecidableEq

/-- The all-zero record a Solidity mapping returns for a missing key. -/
def zeroDepositRequest : DepositRequest :=
  { depositor := 0, amount := 0, revealedAt := 0, vault := 0
    treasuryFee := 0, sweptAt := 0, extraData := 0 }

/-- State of the Solidity MockBridge contract. -/
structure SolidityBridgeState where
  _deposits : Nat → DepositRequest
  _depositTreasuryFeeDivisor : Nat
  _depositTxMaxFee : Nat

/-- Big-endian 4-byte encoding of a uint32, as abi.encodePacked lays it
out. -/
def bytesBE4 (n : Nat) : List Nat :=
  [n / 2 ^ 24 % 256, n / 2 ^ 16 % 256, n / 2 ^ 8 % 256, n % 256]

/-- The deposit key: keccak256(hash256(version, inputVector, outputVector,
locktime) followed by the big-endian funding output index), taken as a
uint256.  Both hash functions are parameters of the model. -/
def depositKeyOf (hash256 : List Nat → List Nat) (keccakNat : List Nat → Nat)
    (fundingTx : BitcoinTxInfo) (fundingOutputIndex : Nat) : Nat :=
  keccakNat
    (hash256 (fundingTx.version ++ fundingTx.inputVector
        ++ fundingTx.outputVector ++ fundingTx.locktime)
      ++ bytesBE4 fundingOutputIndex)

/-- MockBridge.revealDepositWithExtraData: requires the deposit key to be
unrevealed, extracts the funding output and its value, and stores the new
deposit record with treasuryFee computed by integer division when the fee
divisor is positive. -/
def revealDepositWithExtraData (hash256 : List Nat → List Nat)
    (keccakNat : List Nat → Nat) (st : SolidityBridgeState) (sender : Nat)
    (fundingTx : BitcoinTxInfo) (reveal : DepositRevealInfo)
    (extraData : Nat) (timestamp : Nat) : Except String SolidityBridgeState :=
  let depositKey := depositKeyOf hash256 keccakNat fundingTx reveal.fundingOutputIndex
  if (st._deposits depositKey).revealedAt ≠ 0 then
    Except.error "Deposit already revealed"
  else
    match extractOutputAtIndex fundingTx.outputVector reveal.fundingOutputIndex with
    | none => Except.error "Malformed output vector"
    | some fundingOutput =>
      let fundingOutputAmount := extractValue fundingOutput
      let request : DepositRequest :=
        { depositor := sender
          amount := fundingOutputAmount
          revealedAt := timestamp % 2 ^ 32
          vault := reveal.vault
          treasuryFee :=
            if 0 < st._depositTreasuryFeeDivisor then
              fundingOutputAmount / st._depositTreasuryFeeDivisor
            else 0
          sweptAt := 0
          extraData := extraData }
      Except.ok { st with _deposits := Function.update st._deposits depositKey request }

/-- MockBridge.sweepDeposit: requires a revealed, unswept deposit and stamps
sweptAt with the uint32-truncated timestamp. -/
def sweepDeposit (st : SolidityBridgeState) (depositKey timestamp : Nat) :
    Except String SolidityBridgeState :=
  if (st._deposits depositKey).revealedAt = 0 then
    Except.error "Deposit not revealed"
  else if (st._deposits depositKey).sweptAt ≠ 0 then
    Except.error "Deposit already swept"
  else
    let d := st._deposits depositKey
    Except.ok
      { st with _deposits :=
          Function.update st._deposits depositKey { d with sweptAt := timestamp % 2 ^ 32 } }

/-- Revert semantics of a failed reveal call: the state is kept as it was. -/
def runRevealDeposit (hash256 : List Nat → List Nat) (keccakNat : List Nat → Nat)
    (st : SolidityBridgeState) (sender : Nat) (fundingTx : BitcoinTxInfo)
    (reveal : DepositRevealInfo) (extraData : Nat) (timestamp : Nat) :
    SolidityBridgeState :=
  match revealDepositWithExtraData hash256 keccakNat st sender fundingTx reveal extraData timestamp with
  | Except.ok st2 => st2
  | Except.error _ => st

/-- Revert semantics of a failed sweep call: the state is kept as it was. -/
def runSweepDeposit (st : SolidityBridgeState) (depositKey timestamp : Nat) :
    SolidityBridgeState :=
  match sweepDeposit st depositKey timestamp with
  | Except.ok st2 => st2
  | Except.error _ => st

/-- C4: sweptAt only ever transitions from 0 to a nonzero timestamp, at most
once, and only when revealedAt is already nonzero: sweeping an unrevealed
deposit fails, a successful sweep requires sweptAt to have been 0 and sets it
to the nonzero truncated timestamp while leaving every other field and every
other deposit unchanged, a second sweep of the same deposit fails with the
already-swept error, and a failed call leaves the state unchanged. -/
theorem c4_sweptAt_single_transition (st : SolidityBridgeState) (k ts : Nat)
    (hts : ts % 2 ^ 32 ≠ 0) :
    ((st._deposits k).revealedAt = 0 →
      sweepDeposit st k ts = Except.error "Deposit not revealed")
    ∧ ((st._deposits k).revealedAt ≠ 0 → (st._deposits k).sweptAt ≠ 0 →
      sweepDeposit st k ts = Except.error "Deposit already swept")
    ∧ (∀ st2, sweepDeposit st k ts = Except.ok st2 →
        (st._deposits k).revealedAt ≠ 0
        ∧ (st._deposits k).sweptAt = 0
        ∧ (st2._deposits k).sweptAt = ts % 2 ^ 32
        ∧ (st2._deposits k).sweptAt ≠ 0
        ∧ (st2._deposits k).revealedAt = (st._deposits k).revealedAt
        ∧ (st2._deposits k).depositor = (st._deposits k).depositor
        ∧ (st2._deposits k).amount = (st._deposits k).amount
        ∧ (st2._deposits k).treasuryFee = (st._deposits k).treasuryFee
        ∧ (st2._deposits k).extraData = (st._deposits k).extraData
        ∧ (∀ k2, k2 ≠ k → st2._deposits k2 = st._deposits k2)
        ∧ ∀ ts2, sweepDeposit st2 k ts2 = Except.error "Deposit already swept")
    ∧ (∀ msg, sweepDeposit st k ts = Except.error msg → runSweepDeposit st k ts = st) := by
  refine ⟨?_, ?_, ?_, ?_⟩
  · intro h0
    simp [sweepDeposit, h0]
  · intro h1 h2
    simp [sweepDeposit, h1, h2]
  · intro st2 hok
    unfold sweepDeposit at hok
    by_cases h0 : (st._deposits k).revealedAt = 0
    · simp [h0] at hok
    by_cases h1 : (st._deposits k).sweptAt ≠ 0
    · simp [h0, h1] at hok
    push_neg at h1
    simp only [h0, h1, ne_eq, not_true_eq_false, not_false_eq_true, ite_false,
      ite_true, Except.ok.injEq] at hok
    cases hok
    refine ⟨h0, h1, ?_, ?_, ?_, ?_, ?_, ?_, ?_, ?_, ?_⟩
    · simp [Function.update]
    · simpa [Function.update] using hts
    · simp [Function.update]
    · simp [Function.update]
    · simp [Function.update]
    · simp [Function.update]
    · simp [Function.update]
    · intro k2 hk2
      simp [Function.update, hk2]
    · intro ts2
      simp only [sweepDeposit, Function.update]
      simp [h0]
      simpa using hts
  · intro msg herr
    simp [runSweepDeposit, herr]

/-- C4 witness: the transition theorem at a concrete state, deposit key and
timestamp. -/
theorem c4_sweptAt_single_transition_witness :
    (1000 : Nat) % 2 ^ 32 ≠ 0
    ∧ (((SolidityBridgeState.mk (fun _ => zeroDepositRequest) 100 10000000)._deposits 0).revealedAt = 0 →
        sweepDeposit (SolidityBridgeState.mk (fun _ => zeroDepositRequest) 100 10000000) 0 1000
          = Except.error "Deposit not revealed") := by
  have h := c4_sweptAt_single_transition
    (SolidityBridgeState.mk (fun _ => zeroDepositRequest) 100 10000000) 0 1000 (by decide)
  exact ⟨by decide, h.1⟩

/-- C7: whenever the treasury fee divisor is positive and a reveal succeeds,
the treasury fee stored in the deposit record equals the funding output
amount (the value extracted from the funding output at the revealed index)
divided by the divisor with the remainder discarded, and the stored amount
is that funding output amount. -/
theorem c7_treasuryFee_integer_division (hash256 : List Nat → List Nat)
    (keccakNat : List Nat → Nat) (st : SolidityBridgeState) (sender : Nat)
    (fundingTx : BitcoinTxInfo) (reveal : DepositRevealInfo)
    (extraData ts : Nat) (st2 : SolidityBridgeState)
    (hdiv : 0 < st._depositTreasuryFeeDivisor)
    (hok : revealDepositWithExtraData hash256 keccakNat st sender fundingTx reveal extraData ts
      = Except.ok st2) :
    ∃ fundingOutput,
      extractOutputAtIndex fundingTx.outputVector reveal.fundingOutputIndex
          = some fundingOutput
      ∧ (st2._deposits (depositKeyOf hash256 keccakNat fundingTx reveal.fundingOutputIndex)).treasuryFee
          = extractValue fundingOutput / st._depositTreasuryFeeDivisor
      ∧ (st2._deposits (depositKeyOf hash256 keccakNat fundingTx reveal.fundingOutputIndex)).amount
          = extractValue fundingOutput := by
  unfold revealDepositWithExtraData at hok
  by_cases h0 : (st._deposits (depositKeyOf hash256 keccakNat fundingTx reveal.fundingOutputIndex)).revealedAt ≠ 0
  · simp [h0] at hok
  · simp only [h0, ite_false, if_neg, not_false_eq_true, ite_true] at hok
    rcases hout : extractOutputAtIndex fundingTx.outputVector reveal.fundingOutputIndex with _ | fundingOutput
    · rw [hout] at hok
      cases hok
    · rw [hout] at hok
      simp only [Except.ok.injEq] at hok
      cases hok
      refine ⟨fundingOutput, rfl, ?_, ?_⟩
      · simp [Function.update, hdiv]
      · simp [Function.update]

/-- C9: revealing a deposit is create-once: when the deposit key already has
a nonzero revealedAt, revealDepositWithExtraData fails with the
already-revealed error, the reverted call leaves the whole deposit mapping
(hence the stored record with all its fields) unchanged, and in particular a
successful reveal with a nonzero truncated timestamp blocks any second
reveal of the same funding transaction and output index. -/
theorem c9_duplicate_reveal_rejected (hash256 : List Nat → List Nat)
    (keccakNat : List Nat → Nat) (st : SolidityBridgeState) (sender : Nat)
    (fundingTx : BitcoinTxInfo) (reveal : DepositRevealInfo)
    (extraData ts : Nat)
    (hrev : (st._deposits (depositKeyOf hash256 keccakNat fundingTx reveal.fundingOutputIndex)).revealedAt ≠ 0) :
    revealDepositWithExtraData hash256 keccakNat st sender fundingTx reveal extraData ts
        = Except.error "Deposit already revealed"
    ∧ runRevealDeposit hash256 keccakNat st sender fundingTx reveal extraData ts = st
    ∧ ∀ st0 sender0 extraData0 ts0 st1 sender1 extraData1 ts1,
        ts0 % 2 ^ 32 ≠ 0 →
        revealDepositWithExtraData hash256 keccakNat st0 sender0 fundingTx reveal extraData0 ts0
            = Except.ok st1 →
        revealDepositWithExtraData hash256 keccakNat st1 sender1 fundingTx reveal extraData1 ts1
            = Except.error "Deposit already revealed" := by
  have herr : revealDepositWithExtraData hash256 keccakNat st sender fundingTx reveal extraData ts
      = Except.error "Deposit already revealed" := by
    unfold revealDepositWithExtraData
    simp [hrev]
  refine ⟨herr, by simp [runRevealDeposit, herr], ?_⟩
  intro st0 sender0 extraData0 ts0 st1 sender1 extraData1 ts1 hts0 hok
  unfold revealDepositWithExtraData at hok
  by_cases h0 : (st0._deposits (depositKeyOf hash256 keccakNat fundingTx reveal.fundingOutputIndex)).revealedAt ≠ 0
  · simp [h0] at hok
  · simp only [h0, if_neg, not_false_eq_true, ite_true, ite_false] at hok
    rcases hout : extractOutputAtIndex fundingTx.outputVector reveal.fundingOutputIndex with _ | fundingOutput
    · rw [hout] at hok
      cases hok
    · rw [hout] at hok
      simp only [Except.ok.injEq] at hok
      cases hok
      unfold revealDepositWithExtraData
      rw [if_pos]
      simpa [Function.update] using hts0

/-! Concrete data for the reveal witnesses: one output of 10000000 satoshi
with an empty script, revealed at index 0 through constant stand-ins for the
hash functions. -/

/-- A one-output output vector: value 10000000, empty script. -/
def sampleVout : List Nat :=
  [0x01, 0x80, 0x96, 0x98, 0x00, 0x00, 0x00, 0x00, 0x00, 0x00]

/-- A funding transaction around sampleVout. -/
def sampleFundingTx : BitcoinTxInfo :=
  { version := [1, 0, 0, 0], inputVector := [0], outputVector := sampleVout
    locktime := [0, 0, 0, 0] }

/-- Reveal info pointing at output 0 of the funding transaction. -/
def sampleRevealInfo : DepositRevealInfo :=
  { fundingOutputIndex := 0, walletPubKeyHash := List.replicate 20 3, vault := 9 }

/-- Initial Solidity MockBridge state: empty deposits mapping, fee divisor
100, max fee 10000000. -/
def initialBridgeState : SolidityBridgeState :=
  { _deposits := fun _ => zeroDepositRequest
    _depositTreasuryFeeDivisor := 100
    _depositTxMaxFee := 10000000 }

/-- The state after revealing the sample deposit at timestamp 1000. -/
def sampleRevealedState : SolidityBridgeState :=
  runRevealDeposit (fun _ => []) (fun _ => 0) initialBridgeState 5
    sampleFundingTx sampleRevealInfo 7 1000

/-- C7 witness: the treasury fee theorem at the sample reveal. -/
theorem c7_treasuryFee_integer_division_witness :
    0 < initialBridgeState._depositTreasuryFeeDivisor
    ∧ ∃ fundingOutput,
        extractOutputAtIndex sampleFundingTx.outputVector sampleRevealInfo.fundingOutputIndex
            = some fundingOutput
        ∧ (sampleRevealedState._deposits
              (depositKeyOf (fun _ => []) (fun _ => 0) sampleFundingTx sampleRevealInfo.fundingOutputIndex)).treasuryFee
            = extractValue fundingOutput / initialBridgeState._depositTreasuryFeeDivisor
        ∧ (sampleRevealedState._deposits
              (depositKeyOf (fun _ => []) (fun _ => 0) sampleFundingTx sampleRevealInfo.fundingOutputIndex)).amount
            = extractValue fundingOutput :=
  ⟨by decide,
   c7_treasuryFee_integer_division (fun _ => []) (fun _ => 0) initialBridgeState 5
     sampleFundingTx sampleRevealInfo 7 1000 sampleRevealedState (by decide) rfl⟩

/-- C9 witness: the duplicate-reveal theorem at the sample revealed state. -/
theorem c9_duplicate_reveal_rejected_witness :
    revealDepositWithExtraData (fun _ => []) (fun _ => 0) sampleRevealedState 6
        sampleFundingTx sampleRevealInfo 8 2000
      = Except.error "Deposit already revealed"
    ∧ runRevealDeposit (fun _ => []) (fun _ => 0) sampleRevealedState 6
        sampleFundingTx sampleRevealInfo 8 2000 = sampleRevealedState
    ∧ ∀ st0 sender0 extraData0 ts0 st1 sender1 extraData1 ts1,
        ts0 % 2 ^ 32 ≠ 0 →
        revealDepositWithExtraData (fun _ => []) (fun _ => 0) st0 sender0 sampleFundingTx sampleRevealInfo extraData0 ts0
            = Except.ok st1 →
        revealDepositWithExtraData (fun _ => []) (fun _ => 0) st1 sender1 sampleFundingTx sampleRevealInfo extraData1 ts1
            = Except.error "Deposit already revealed" :=
  c9_duplicate_reveal_rejected (fun _ => []) (fun _ => 0) sampleRevealedState 6
    sampleFundingTx sampleRevealInfo 8 2000 (by decide)

/-! ## Deposit sweep accounting (C3)

The Bridge code crediting depositor balances in the Bank is not among the
sources (the system test in the sources only observes its effect), so the
accounting is modelled from the spec. -/

/-- A deposit being swept: depositor identity, amount, and the treasury fee
recorded at reveal time. -/
structure SweptDeposit where
  depositor : Nat
  amount : Nat
  treasuryFee : Nat

/-- Modelled from the spec: the accounted net value of a swept deposit is its
amount minus the treasury fee already withheld at reveal time. -/
def depositNetValue (d : SweptDeposit) : Nat :=
  d.amount - d.treasuryFee

/-- Modelled from the spec: the implied Bitcoin transaction fee is
distributed proportionally across the swept deposits accounted net value. -/
def sweepFeeShare (txFee totalNet net : Nat) : Nat :=
  txFee * net / totalNet

/-- Modelled from the spec: each depositor is credited the accounted net
value minus the proportional share of the transaction fee. -/
def sweepCredit (txFee totalNet : Nat) (d : SweptDeposit) : Nat :=
  depositNetValue d - sweepFeeShare txFee totalNet (depositNetValue d)

/-- Modelled from the spec: applying a sweep credits every swept depositor
in the external balance ledger. -/
def applyDepositSweep (bank : Nat → Nat) (txFee : Nat) (ds : List SweptDeposit) :
    Nat → Nat :=
  let totalNet := (ds.map depositNetValue).sum
  ds.foldl
    (fun b d => Function.update b d.depositor (b d.depositor + sweepCredit txFee totalNet d))
    bank

/-- C3: after sweeping a single revealed deposit with no prior main UTXO,
the depositor external balance increases by exactly the deposit amount minus
the reveal-time treasury fee minus the sweep transaction chain fee. -/
theorem c3_single_deposit_sweep_credit (bank : Nat → Nat) (d : SweptDeposit)
    (txFee : Nat) (hnet : 0 < depositNetValue d) :
    applyDepositSweep bank txFee [d] d.depositor
      = bank d.depositor + (d.amount - d.treasuryFee - txFee) := by
  have hshare : sweepFeeShare txFee (d.amount - d.treasuryFee) (d.amount - d.treasuryFee) = txFee := by
    unfold sweepFeeShare
    exact Nat.mul_div_cancel txFee (by simpa [depositNetValue] using hnet)
  simp [applyDepositSweep, sweepCredit, Function.update, depositNetValue, hshare]

/-- C3 witness: the fixture numbers: a 10000000 satoshi deposit swept with a
10000 satoshi chain fee and a 100000 satoshi treasury fee credits exactly
9890000 satoshi. -/
theorem c3_single_deposit_sweep_credit_witness :
    0 < depositNetValue ⟨21, 10000000, 100000⟩
    ∧ applyDepositSweep (fun _ => 0) 10000 [⟨21, 10000000, 100000⟩] 21
        = 0 + (10000000 - 100000 - 10000) :=
  ⟨by decide, c3_single_deposit_sweep_credit (fun _ => 0) ⟨21, 10000000, 100000⟩ 10000 (by decide)⟩

/-! ## Moving funds output validation (C5, C6)

The Bridge moving-funds processing is not among the sources; the output
validation is modelled from the spec and checked against the moving-funds
fixtures that are in the sources. -/

/-- Error taxonomy of the modelled moving-funds output validation. -/
inductive MovingFundsError where
  | IllegalOutputType
  | UnevenDistribution
  | WrongOutputsCount
  | WrongTargetWallet
  | MalformedOutputVector
deriving DecidableEq

/-- Standard output script shapes with their extracted payloads. -/
inductive ScriptClass where
  | p2pkh (pubKeyHash : List Nat)
  | p2wpkh (pubKeyHash : List Nat)
  | p2sh (scriptHash : List Nat)
  | p2wsh (scriptHash : List Nat)
  | nonstandard
deriving DecidableEq

/-- Classifies an output script: 0x76 0xa9 0x14 hash20 0x88 0xac is P2PKH,
0x00 0x14 hash20 is P2WPKH, 0xa9 0x14 hash20 0x87 is P2SH, 0x00 0x20 hash32
is P2WSH. -/
def classifyScript (s : List Nat) : ScriptClass :=
  if s.length = 25 ∧ s.take 3 = [0x76, 0xa9, 0x14] ∧ s.drop 23 = [0x88, 0xac] then
    ScriptClass.p2pkh ((s.drop 3).take 20)
  else if s.length = 22 ∧ s.take 2 = [0x00, 0x14] then
    ScriptClass.p2wpkh (s.drop 2)
  else if s.length = 23 ∧ s.take 2 = [0xa9, 0x14] ∧ s.drop 22 = [0x87] then
    ScriptClass.p2sh ((s.drop 2).take 20)
  else if s.length = 34 ∧ s.take 2 = [0x00, 0x20] then
    ScriptClass.p2wsh (s.drop 2)
  else ScriptClass.nonstandard

/-- The 20- or 32-byte payload of a standard script, if any. -/
def scriptPayload (s : List Nat) : Option (List Nat) :=
  match classifyScript s with
  | ScriptClass.p2pkh h => some h
  | ScriptClass.p2wpkh h => some h
  | ScriptClass.p2sh h => some h
  | ScriptClass.p2wsh h => some h
  | ScriptClass.nonstandard => none

/-- Whether the script is a script-hash output (P2SH or P2WSH). -/
def isScriptHashOutput (s : List Nat) : Bool :=
  match classifyScript s with
  | ScriptClass.p2sh _ => true
  | ScriptClass.p2wsh _ => true
  | _ => false

/-- Parses one serialized output at the head of the buffer into its value,
script and the remaining bytes. -/
def parseOutput (b : List Nat) : Option (Nat × List Nat × List Nat) :=
  if b.length < 9 then none
  else
    match parseVarInt (b.drop 8) with
    | none => none
    | some (varIntDataLen, scriptLen) =>
      let total := 8 + 1 + varIntDataLen + scriptLen
      if total ≤ b.length then
        some (readLE (b.take 8), (b.drop (9 + varIntDataLen)).take scriptLen, b.drop total)
      else none

/-- Parses exactly the given number of outputs, requiring the buffer to be
fully consumed. -/
def parseOutputList : Nat → List Nat → Option (List (Nat × List Nat))
  | 0, b => if b.isEmpty then some [] else none
  | n + 1, b =>
    match parseOutput b with
    | none => none
    | some (v, script, rest) =>
      match parseOutputList n rest with
      | none => none
      | some outs => some ((v, script) :: outs)

/-- Modelled from the spec: the script pass of the moving-funds output
validation: one output per committed target wallet, in commitment order,
each a standard P2PKH or P2WPKH paying the committed hash; P2SH, P2WSH and
nonstandard outputs fail with IllegalOutputType. -/
def checkMovingFundsScripts :
    List (Nat × List Nat) → List (List Nat) → Except MovingFundsError Unit
  | [], [] => Except.ok ()
  | o :: outs, t :: ts =>
    match classifyScript o.2 with
    | ScriptClass.p2pkh h =>
      if h = t then checkMovingFundsScripts outs ts
      else Except.error MovingFundsError.WrongTargetWallet
    | ScriptClass.p2wpkh h =>
      if h = t then checkMovingFundsScripts outs ts
      else Except.error MovingFundsError.WrongTargetWallet
    | _ => Except.error MovingFundsError.IllegalOutputType
  | _, _ => Except.error MovingFundsError.WrongOutputsCount

/-- Modelled from the spec, amended by the fixtures in the sources: with q
the distributable amount divided by the target count and r the remainder,
every output must pay q or q plus r, and when r is positive at most one
output may carry the remainder. -/
def checkMovingFundsAmounts (outs : List (Nat × List Nat)) (distributable : Nat) :
    Except MovingFundsError Unit :=
  let n := outs.length
  let q := distributable / n
  let r := distributable % n
  let vals := outs.map Prod.fst
  if (∀ v ∈ vals, v = q ∨ v = q + r) ∧ (r = 0 ∨ vals.count (q + r) ≤ 1) then
    Except.ok ()
  else Except.error MovingFundsError.UnevenDistribution

/-- The distribution rule exactly as the claim states it: every output but
the last pays the per-wallet quotient and the last output receives the
quotient plus the whole indivisible remainder. -/
def checkAmountsRemainderToLast (outs : List (Nat × List Nat)) (distributable : Nat) :
    Except MovingFundsError Unit :=
  let n := outs.length
  let q := distributable / n
  let r := distributable % n
  let vals := outs.map Prod.fst
  if vals.dropLast = List.replicate (n - 1) q ∧ vals.getLast? = some (q + r) then
    Except.ok ()
  else Except.error MovingFundsError.UnevenDistribution

/-- Modelled from the spec: the output validation of submitMovingFundsProof:
parse the output vector, run the script pass, then check the even
distribution of the distributable amount (main UTXO value minus transaction
fee). -/
def checkMovingFundsOutputs (outputVector : List Nat)
    (targetWalletsCommitment : List (List Nat)) (mainUtxoValue txFee : Nat) :
    Except MovingFundsError Unit :=
  match parseVarInt outputVector with
  | none => Except.error MovingFundsError.MalformedOutputVector
  | some (varIntDataLen, nOuts) =>
    match parseOutputList nOuts (outputVector.drop (1 + varIntDataLen)) with
    | none => Except.error MovingFundsError.MalformedOutputVector
    | some outs =>
      match checkMovingFundsScripts outs targetWalletsCommitment with
      | Except.error e => Except.error e
      | Except.ok _ => checkMovingFundsAmounts outs (mainUtxoValue - txFee)

/-- The same validation with the distribution rule taken literally from the
claim: remainder on the last output. -/
def checkMovingFundsOutputsLastRemainder (outputVector : List Nat)
    (targetWalletsCommitment : List (List Nat)) (mainUtxoValue txFee : Nat) :
    Except MovingFundsError Unit :=
  match parseVarInt outputVector with
  | none => Except.error MovingFundsError.MalformedOutputVector
  | some (varIntDataLen, nOuts) =>
    match parseOutputList nOuts (outputVector.drop (1 + varIntDataLen)) with
    | none => Except.error MovingFundsError.MalformedOutputVector
    | some outs =>
      match checkMovingFundsScripts outs targetWalletsCommitment with
      | Except.error e => Except.error e
      | Except.ok _ => checkAmountsRemainderToLast outs (mainUtxoValue - txFee)

/-! ## Moving funds fixtures from the sources

Output vectors and commitments of the MultipleTargetWalletsAndIndivisibleAmount,
MultipleTargetWalletsButAmountDistributedUnevenly and SingleTargetWalletButP2SH
test data, byte for byte. -/

/-- Output vector of MultipleTargetWalletsAndIndivisibleAmount: three outputs
paying 595484, 595485 and 595484 satoshi (the 1 satoshi remainder sits on the
second output). -/
def indivisibleOutputVector : List Nat :=
  [0x03, 0x1c, 0x16, 0x09, 0x00, 0x00, 0x00, 0x00, 0x00, 0x19, 0x76, 0xa9,
   0x14, 0x2c, 0xd6, 0x80, 0x31, 0x87, 0x47, 0xb7, 0x20, 0xd6, 0x7b, 0xf4,
   0x24, 0x6e, 0xb7, 0x40, 0x3b, 0x47, 0x6a, 0xdb, 0x34, 0x88, 0xac, 0x1d,
   0x16, 0x09, 0x00, 0x00, 0x00, 0x00, 0x00, 0x16, 0x00, 0x14, 0x89, 0x00,
   0xde, 0x8f, 0xc6, 0xe4, 0xcd, 0x1d, 0xb4, 0xc7, 0xab, 0x07, 0x59, 0xd2,
   0x85, 0x03, 0xb4, 0xcb, 0x0a, 0xb1, 0x1c, 0x16, 0x09, 0x00, 0x00, 0x00,
   0x00, 0x00, 0x19, 0x76, 0xa9, 0x14, 0xaf, 0x7a, 0x84, 0x1e, 0x05, 0x5f,
   0xc1, 0x9b, 0xf3, 0x1a, 0xcf, 0x4c, 0xbe, 0xd5, 0xef, 0x54, 0x8a, 0x2c,
   0xc4, 0x53, 0x88, 0xac]

/-- Output vector of MultipleTargetWalletsButAmountDistributedUnevenly: three
outputs paying 423471, 423472 and 423475 satoshi. -/
def unevenOutputVector : List Nat :=
  [0x03, 0x2f, 0x76, 0x06, 0x00, 0x00, 0x00, 0x00, 0x00, 0x19, 0x76, 0xa9,
   0x14, 0x2c, 0xd6, 0x80, 0x31, 0x87, 0x47, 0xb7, 0x20, 0xd6, 0x7b, 0xf4,
   0x24, 0x6e, 0xb7, 0x40, 0x3b, 0x47, 0x6a, 0xdb, 0x34, 0x88, 0xac, 0x30,
   0x76, 0x06, 0x00, 0x00, 0x00, 0x00, 0x00, 0x16, 0x00, 0x14, 0x89, 0x00,
   0xde, 0x8f, 0xc6, 0xe4, 0xcd, 0x1d, 0xb4, 0xc7, 0xab, 0x07, 0x59, 0xd2,
   0x85, 0x03, 0xb4, 0xcb, 0x0a, 0xb1, 0x33, 0x76, 0x06, 0x00, 0x00, 0x00,
   0x00, 0x00, 0x19, 0x76, 0xa9, 0x14, 0xaf, 0x7a, 0x84, 0x1e, 0x05, 0x5f,
   0xc1, 0x9b, 0xf3, 0x1a, 0xcf, 0x4c, 0xbe, 0xd5, 0xef, 0x54, 0x8a, 0x2c,
   0xc4, 0x53, 0x88, 0xac]

/-- The three committed target wallet hashes shared by the multi-target
fixtures. -/
def multiTargetCommitment : List (List Nat) :=
  [[0x2c, 0xd6, 0x80, 0x31, 0x87, 0x47, 0xb7, 0x20, 0xd6, 0x7b, 0xf4, 0x24,
    0x6e, 0xb7, 0x40, 0x3b, 0x47, 0x6a, 0xdb, 0x34],
   [0x89, 0x00, 0xde, 0x8f, 0xc6, 0xe4, 0xcd, 0x1d, 0xb4, 0xc7, 0xab, 0x07,
    0x59, 0xd2, 0x85, 0x03, 0xb4, 0xcb, 0x0a, 0xb1],
   [0xaf, 0x7a, 0x84, 0x1e, 0x05, 0x5f, 0xc1, 0x9b, 0xf3, 0x1a, 0xcf, 0x4c,
    0xbe, 0xd5, 0xef, 0x54, 0x8a, 0x2c, 0xc4, 0x53]]

/-- Output vector of SingleTargetWalletButP2SH: one P2SH output paying
1176924 satoshi whose script hash equals the committed target wallet
hash. -/
def p2shOutputVector : List Nat :=
  [0x01, 0x5c, 0xf5, 0x11, 0x00, 0x00, 0x00, 0x00, 0x00, 0x17, 0xa9, 0x14,
   0x86, 0x88, 0x4e, 0x6b, 0xe1, 0x52, 0x5d, 0xab, 0x5a, 0xe0, 0xb4, 0x51,
   0xbd, 0x2c, 0x72, 0xce, 0xe6, 0x7d, 0xcf, 0x41, 0x87]

/-- The committed target wallet hash of the P2SH fixture. -/
def p2shCommitment : List (List Nat) :=
  [[0x86, 0x88, 0x4e, 0x6b, 0xe1, 0x52, 0x5d, 0xab, 0x5a, 0xe0, 0xb4, 0x51,
    0xbd, 0x2c, 0x72, 0xce, 0xe6, 0x7d, 0xcf, 0x41]]

/-- C5 counterexample: under the distribution rule exactly as the claim
states it (every target output pays the quotient and the whole indivisible
remainder goes to the last output), the
MultipleTargetWalletsAndIndivisibleAmount fixture is rejected with
UnevenDistribution, although the claim requires this fixture to be accepted:
its 1 satoshi remainder sits on the second of the three outputs, as the
parsed values show. -/
theorem c5_counterexample_remainder_not_on_last :
    checkMovingFundsOutputsLastRemainder indivisibleOutputVector multiTargetCommitment 1795453 9000
        = Except.error MovingFundsError.UnevenDistribution
    ∧ (parseOutputList 3 (indivisibleOutputVector.drop 1)).map (fun l => l.map Prod.fst)
        = some [595484, 595485, 595484]
    ∧ (1795453 - 9000) / 3 = 595484
    ∧ (1795453 - 9000) % 3 = 1 := by
  refine ⟨rfl, rfl, rfl, rfl⟩

/-- C5 amended: every target output pays the equal per-wallet quotient
except a single output (not necessarily the last) which additionally
receives the indivisible remainder; with that rule the
MultipleTargetWalletsAndIndivisibleAmount fixture is accepted and the
MultipleTargetWalletsButAmountDistributedUnevenly fixture is rejected with
UnevenDistribution. -/
theorem c5_amended_remainder_on_single_output :
    checkMovingFundsOutputs indivisibleOutputVector multiTargetCommitment 1795453 9000
        = Except.ok ()
    ∧ checkMovingFundsOutputs unevenOutputVector multiTargetCommitment 1279418 9000
        = Except.error MovingFundsError.UnevenDistribution := by
  refine ⟨rfl, rfl⟩

theorem checkMovingFundsScripts_rejects_script_hash :
    ∀ (outs : List (Nat × List Nat)) (commitment : List (List Nat)),
    outs.length = commitment.length →
    (∀ p ∈ outs.zip commitment, scriptPayload p.1.2 = some p.2) →
    (∃ p ∈ outs.zip commitment, isScriptHashOutput p.1.2 = true) →
    checkMovingFundsScripts outs commitment
      = Except.error MovingFundsError.IllegalOutputType := by
  intro outs
  induction outs with
  | nil =>
    intro commitment hlen hmatch hsome
    rcases hsome with ⟨p, hp, _⟩
    simp at hp
  | cons o rest ih =>
    intro commitment hlen hmatch hsome
    cases commitment with
    | nil => simp at hlen
    | cons t ts =>
      have hhead : scriptPayload o.2 = some t := by
        refine hmatch (o, t) ?_
        rw [List.zip_cons_cons]
        exact List.mem_cons_self _ _
      rcases hc : classifyScript o.2 with h | h | h | h
      case p2pkh =>
        have ht : h = t := by
          simp [scriptPayload, hc] at hhead
          exact hhead
        have htail : ∃ p ∈ rest.zip ts, isScriptHashOutput p.1.2 = true := by
          rcases hsome with ⟨p, hp, hish⟩
          have hp2 : p ∈ ((o, t) :: rest.zip ts) := by
            rw [List.zip_cons_cons] at hp
            exact hp
          rcases List.mem_cons.mp hp2 with hph | hpt
          · exfalso
            rw [hph] at hish
            simp [isScriptHashOutput, hc] at hish
          · exact ⟨p, hpt, hish⟩
        have := ih ts (by simpa using hlen)
          (fun p hp => hmatch p (by rw [List.zip_cons_cons]; exact List.mem_cons_of_mem _ hp)) htail
        simp [checkMovingFundsScripts, hc, ht, this]
      case p2wpkh =>
        have ht : h = t := by
          simp [scriptPayload, hc] at hhead
          exact hhead
        have htail : ∃ p ∈ rest.zip ts, isScriptHashOutput p.1.2 = true := by
          rcases hsome with ⟨p, hp, hish⟩
          have hp2 : p ∈ ((o, t) :: rest.zip ts) := by
            rw [List.zip_cons_cons] at hp
            exact hp
          rcases List.mem_cons.mp hp2 with hph | hpt
          · exfalso
            rw [hph] at hish
            simp [isScriptHashOutput, hc] at hish
          · exact ⟨p, hpt, hish⟩
        have := ih ts (by simpa using hlen)
          (fun p hp => hmatch p (by rw [List.zip_cons_cons]; exact List.mem_cons_of_mem _ hp)) htail
        simp [checkMovingFundsScripts, hc, ht, this]
      case p2sh =>
        simp [checkMovingFundsScripts, hc]
      case p2wsh =>
        simp [checkMovingFundsScripts, hc]
      case nonstandard =>
        simp [scriptPayload, hc] at hhead

/-- C6: whenever the parsed moving-funds outputs pair up with the committed
target wallets so that every output script carries exactly its committed
hash, the presence of any P2SH or P2WSH output makes the validation fail
with IllegalOutputType regardless of the amounts; in particular the
SingleTargetWalletButP2SH fixture, whose P2SH script hash equals the
committed target wallet hash, is rejected with IllegalOutputType. -/
theorem c6_script_hash_output_rejected (outputVector : List Nat)
    (commitment : List (List Nat)) (mainUtxoValue txFee : Nat)
    (varIntDataLen nOuts : Nat) (outs : List (Nat × List Nat))
    (hvar : parseVarInt outputVector = some (varIntDataLen, nOuts))
    (houts : parseOutputList nOuts (outputVector.drop (1 + varIntDataLen)) = some outs)
    (hlen : outs.length = commitment.length)
    (hmatch : ∀ p ∈ outs.zip commitment, scriptPayload p.1.2 = some p.2)
    (hsome : ∃ p ∈ outs.zip commitment, isScriptHashOutput p.1.2 = true) :
    checkMovingFundsOutputs outputVector commitment mainUtxoValue txFee
        = Except.error MovingFundsError.IllegalOutputType
    ∧ checkMovingFundsOutputs p2shOutputVector p2shCommitment 1177424 500
        = Except.error MovingFundsError.IllegalOutputType := by
  constructor
  · have hscripts := checkMovingFundsScripts_rejects_script_hash outs commitment hlen hmatch hsome
    simp [checkMovingFundsOutputs, hvar, houts, hscripts]
  · rfl

/-- C6 witness: the theorem at the SingleTargetWalletButP2SH fixture data
itself. -/
theorem c6_script_hash_output_rejected_witness :
    checkMovingFundsOutputs p2shOutputVector p2shCommitment 1177424 500
        = Except.error MovingFundsError.IllegalOutputType
    ∧ checkMovingFundsOutputs p2shOutputVector p2shCommitment 1177424 500
        = Except.error MovingFundsError.IllegalOutputType :=
  c6_script_hash_output_rejected p2shOutputVector p2shCommitment 1177424 500
    0 1
    [(1176924,
      [0xa9, 0x14, 0x86, 0x88, 0x4e, 0x6b, 0xe1, 0x52, 0x5d, 0xab, 0x5a, 0xe0,
       0xb4, 0x51, 0xbd, 0x2c, 0x72, 0xce, 0xe6, 0x7d, 0xcf, 0x41, 0x87])]
    rfl rfl rfl (by decide) (by decide)

/-! ## Bitcoin address conversions (C10)

publicKeyHashToAddress and addressToPublicKeyHash delegate to the base58check
(P2PKH) and bech32 (P2WPKH) codecs of the underlying Bitcoin library; those
codecs are embedded here.  Addresses are lists of ASCII codes.  SHA-256,
used only for the base58check checksum, is a parameter of the model. -/

/-- Supported networks of the embedding: the address converter maps Mainnet
and Testnet to the corresponding library network parameters and rejects the
unknown network. -/
inductive Network where
  | mainnet
  | testnet
deriving DecidableEq

/-- Version byte of P2PKH addresses for each network. -/
def networkPubKeyHashVersion : Network → Nat
  | Network.mainnet => 0x00
  | Network.testnet => 0x6f

/-- Bech32 human readable part for each network, as ASCII codes. -/
def networkBech32Hrp : Network → List Nat
  | Network.mainnet => [98, 99]
  | Network.testnet => [116, 98]

/-- The base58 alphabet as ASCII codes. -/
def base58Alphabet : List Nat :=
  [49, 50, 51, 52, 53, 54, 55, 56, 57, 65, 66, 67,
   68, 69, 70, 71, 72, 74, 75, 76, 77, 78, 80, 81,
   82, 83, 84, 85, 86, 87, 88, 89, 90, 97, 98, 99,
   100, 101, 102, 103, 104, 105, 106, 107, 109, 110, 111, 112,
   113, 114, 115, 116, 117, 118, 119, 120, 121, 122]

/-- The position of a character in an alphabet, if present. -/
def charValueIn : List Nat → Nat → Option Nat
  | [], _ => none
  | a :: rest, c => if a = c then some 0 else (charValueIn rest c).map (· + 1)

/-- Maps every character to its base58 digit value, failing on a character
outside the alphabet. -/
def base58CharValues : List Nat → Option (List Nat)
  | [] => some []
  | c :: rest =>
    match charValueIn base58Alphabet c, base58CharValues rest with
    | some d, some ds => some (d :: ds)
    | _, _ => none

/-- Big-endian digits of a number in the given base, without leading
zeros. -/
def natToDigitsBE (base n : Nat) : List Nat :=
  (Nat.digits base n).reverse

/-- Value of big-endian digits in the given base. -/
def digitsBEToNat (base : Nat) (ds : List Nat) : Nat :=
  Nat.ofDigits base ds.reverse

/-- Big-endian bytes of a number, without leading zeros. -/
def natToBytesBE (n : Nat) : List Nat :=
  natToDigitsBE 256 n

/-- Value of big-endian bytes. -/
def bytesBEToNat (bs : List Nat) : Nat :=
  digitsBEToNat 256 bs

/-- base-x encoding with the base58 alphabet: one alphabet head character
per leading zero byte, then the big-endian base58 digits of the value. -/
def base58EncodeChars (bs : List Nat) : List Nat :=
  let zeros := (bs.takeWhile (· == 0)).length
  let v := bytesBEToNat bs
  List.replicate zeros 49 ++ (natToDigitsBE 58 v).map (fun d => base58Alphabet.getD d 0)

/-- base-x decoding with the base58 alphabet: char values, leading zero
count, then the bytes of the remaining value. -/
def base58DecodeBytes (chars : List Nat) : Option (List Nat) :=
  match base58CharValues chars with
  | none => none
  | some ds =>
    let zeros := (ds.takeWhile (· == 0)).length
    let v := digitsBEToNat 58 ds
    some (List.replicate zeros 0 ++ natToBytesBE v)

theorem digitsBEToNat_natToDigitsBE (base n : Nat) :
    digitsBEToNat base (natToDigitsBE base n) = n := by
  simp [digitsBEToNat, natToDigitsBE, Nat.ofDigits_digits]

theorem digitsBEToNat_replicate_zero_append (base : Nat) (z : Nat) (l : List Nat) :
    digitsBEToNat base (List.replicate z 0 ++ l) = digitsBEToNat base l := by
  unfold digitsBEToNat
  rw [List.reverse_append, Nat.ofDigits_append]
  have hz : Nat.ofDigits base (List.replicate z 0) = 0 := by
    induction z with
    | zero => simp [Nat.ofDigits]
    | succ z ih => simp [List.replicate_succ, Nat.ofDigits, ih]
  simp [hz]

theorem takeWhile_replicate_zero_append (z : Nat) (l : List Nat)
    (hl : l = [] ∨ l.head? ≠ some 0) :
    ((List.replicate z 0 ++ l).takeWhile (fun b => b == 0)).length = z := by
  induction z with
  | zero =>
    simp only [List.replicate, List.nil_append]
    rcases hl with h | h
    · simp [h]
    · cases l with
      | nil => simp
      | cons a rest =>
        have ha : a ≠ 0 := by
          intro h0
          exact h (by simp [h0])
        simp [List.takeWhile, beq_false_of_ne ha]
  | succ z ih =>
    simp only [List.replicate_succ, List.cons_append]
    rw [List.takeWhile_cons]
    simpa using ih

/-- The head digit of the base58 expansion of a positive number is not
zero. -/
theorem natToDigitsBE_head_ne_zero (base n : Nat) (hb : 1 < base) (hn : n ≠ 0) :
    natToDigitsBE base n = [] ∨ (natToDigitsBE base n).head? ≠ some 0 := by
  unfold natToDigitsBE
  rcases hd : Nat.digits base n with _ | ⟨d, l⟩
  · left
    simp [hd]
  · right
    have hlast2 : (d :: l).getLast (by simp) ≠ 0 := by
      have h0 := Nat.getLast_digit_ne_zero base hn
      simpa [hd] using h0
    rw [List.head?_reverse]
    rw [List.getLast?_eq_getLast (d :: l) (by simp)]
    intro hc
    exact hlast2 (by simpa using hc)

theorem charValueIn_base58_of_digit :
    ∀ d : Fin 58, charValueIn base58Alphabet (base58Alphabet.getD d.val 0) = some d.val := by
  decide

theorem base58CharValues_map_digits (ds : List Nat) (h : ∀ d ∈ ds, d < 58) :
    base58CharValues (ds.map (fun d => base58Alphabet.getD d 0)) = some ds := by
  induction ds with
  | nil => rfl
  | cons d rest ih =>
    have hd : d < 58 := h d (List.mem_cons_self _ _)
    have hchar := charValueIn_base58_of_digit ⟨d, hd⟩
    have hrest := ih (fun x hx => h x (List.mem_cons_of_mem _ hx))
    simp only [List.map_cons, base58CharValues, hchar, hrest]

theorem head_dropWhile_zero_ne (l : List Nat) :
    l.dropWhile (fun b => b == 0) = []
      ∨ (l.dropWhile (fun b => b == 0)).head? ≠ some 0 := by
  induction l with
  | nil => left; rfl
  | cons a rest ih =>
    by_cases ha : a = 0
    · simpa [List.dropWhile_cons, ha] using ih
    · right
      rw [List.dropWhile_cons]
      simp only [beq_false_of_ne ha]
      simp [ha]

theorem takeWhile_zero_eq_replicate (l : List Nat) :
    l.takeWhile (fun b => b == 0)
      = List.replicate (l.takeWhile (fun b => b == 0)).length 0 := by
  apply List.eq_replicate_of_mem
  intro b hb
  have := List.mem_takeWhile_imp hb
  simpa using this

/-- Round trip of the base-x codec over the base58 alphabet. -/
theorem base58_roundtrip (bs : List Nat) (h : ∀ b ∈ bs, b < 256) :
    base58DecodeBytes (base58EncodeChars bs) = some bs := by
  set zeros := (bs.takeWhile (fun b => b == 0)).length with hzeros
  set tail := bs.dropWhile (fun b => b == 0) with htail
  have hsplit : bs = List.replicate zeros 0 ++ tail := by
    conv_lhs => rw [← List.takeWhile_append_dropWhile (p := fun b => b == 0) (l := bs)]
    rw [← takeWhile_zero_eq_replicate]
  have htailmem : ∀ b ∈ tail, b < 256 := by
    intro b hb
    exact h b (List.dropWhile_sublist _ |>.subset hb)
  have hheadtail : tail = [] ∨ tail.head? ≠ some 0 := head_dropWhile_zero_ne bs
  have hv : bytesBEToNat bs = bytesBEToNat tail := by
    conv_lhs => rw [hsplit]
    exact digitsBEToNat_replicate_zero_append 256 zeros tail
  set v := bytesBEToNat tail with hvdef
  have hdig : natToBytesBE v = tail := by
    unfold natToBytesBE natToDigitsBE
    unfold bytesBEToNat digitsBEToNat at hvdef
    rw [hvdef]
    rcases hheadtail with ht | ht
    · simp [ht, Nat.ofDigits]
    · have hmem : ∀ x ∈ tail.reverse, x < 256 := by
        intro x hx
        exact htailmem x (List.mem_reverse.mp hx)
      have hlast : ∀ hrev : tail.reverse ≠ [], tail.reverse.getLast hrev ≠ 0 := by
        intro hrev hc
        have h1 : tail.reverse.getLast? = some 0 := by
          rw [List.getLast?_eq_getLast _ hrev, hc]
        rw [List.getLast?_reverse] at h1
        exact ht h1
      rw [Nat.digits_ofDigits 256 (by norm_num) tail.reverse hmem hlast]
      exact List.reverse_reverse tail
  have hdigits58 : ∀ d ∈ natToDigitsBE 58 (bytesBEToNat bs), d < 58 := by
    intro d hd
    unfold natToDigitsBE at hd
    exact Nat.digits_lt_base (by norm_num) (List.mem_reverse.mp hd)
  have hencode : base58EncodeChars bs
      = (List.replicate zeros 0 ++ natToDigitsBE 58 (bytesBEToNat bs)).map
          (fun d => base58Alphabet.getD d 0) := by
    unfold base58EncodeChars
    rw [List.map_append, List.map_replicate]
    rfl
  have hallds : ∀ d ∈ List.replicate zeros 0 ++ natToDigitsBE 58 (bytesBEToNat bs), d < 58 := by
    intro d hd
    rcases List.mem_append.mp hd with h1 | h1
    · have := List.eq_of_mem_replicate h1
      omega
    · exact hdigits58 d h1
  have hheaddig : natToDigitsBE 58 (bytesBEToNat bs) = []
      ∨ (natToDigitsBE 58 (bytesBEToNat bs)).head? ≠ some 0 := by
    by_cases hv0 : bytesBEToNat bs = 0
    · left
      simp [natToDigitsBE, hv0]
    · exact natToDigitsBE_head_ne_zero 58 _ (by norm_num) hv0
  unfold base58DecodeBytes
  rw [hencode, base58CharValues_map_digits _ hallds]
  simp only
  rw [takeWhile_replicate_zero_append zeros _ hheaddig]
  rw [digitsBEToNat_replicate_zero_append 58 zeros _]
  rw [digitsBEToNat_natToDigitsBE 58 (bytesBEToNat bs)]
  rw [hv, hdig]
  rw [← hsplit]

/-- First four bytes of the double SHA-256 of the payload. -/
def sha256dChecksum (sha256 : List Nat → List Nat) (payload : List Nat) : List Nat :=
  (sha256 (sha256 payload)).take 4

/-- bs58check.encode: appends the 4-byte checksum and base58 encodes. -/
def bs58checkEncode (sha256 : List Nat → List Nat) (payload : List Nat) : List Nat :=
  base58EncodeChars (payload ++ sha256dChecksum sha256 payload)

/-- bs58check.decode: base58 decodes, verifies and strips the 4-byte
checksum. -/
def bs58checkDecode (sha256 : List Nat → List Nat) (chars : List Nat) :
    Option (List Nat) :=
  match base58DecodeBytes chars with
  | none => none
  | some bytes =>
    if 4 ≤ bytes.length then
      let payload := bytes.take (bytes.length - 4)
      let cs := bytes.drop (bytes.length - 4)
      if cs = sha256dChecksum sha256 payload then some payload else none
    else none

/-- payments.p2pkh address construction: base58check of the network version
byte followed by the 20-byte hash. -/
def p2pkhAddressOf (sha256 : List Nat → List Nat) (network : Network)
    (pubKeyHash : List Nat) : List Nat :=
  bs58checkEncode sha256 (networkPubKeyHashVersion network :: pubKeyHash)

/-- payments.p2pkh hash extraction from an address: base58check decode, then
the version byte must match the network and the hash must be 20 bytes. -/
def p2pkhHashFromAddress (sha256 : List Nat → List Nat) (network : Network)
    (addr : List Nat) : Option (List Nat) :=
  match bs58checkDecode sha256 addr with
  | none => none
  | some payload =>
    match payload with
    | [] => none
    | version :: rest =>
      if version = networkPubKeyHashVersion network ∧ rest.length = 20 then some rest
      else none

theorem networkPubKeyHashVersion_lt (network : Network) :
    networkPubKeyHashVersion network < 256 := by
  cases network <;> decide

/-- Round trip of the P2PKH base58check encoding. -/
theorem p2pkh_roundtrip (sha256 : List Nat → List Nat) (network : Network)
    (h : List Nat) (hb : ∀ b ∈ h, b < 256) (hlen : h.length = 20)
    (hsha : ∀ x, (sha256 x).length = 32)
    (hshab : ∀ x, ∀ b ∈ sha256 x, b < 256) :
    p2pkhHashFromAddress sha256 network (p2pkhAddressOf sha256 network h) = some h := by
  unfold p2pkhAddressOf p2pkhHashFromAddress bs58checkEncode bs58checkDecode
  set payload := networkPubKeyHashVersion network :: h with hpayload
  set cs := sha256dChecksum sha256 payload with hcs
  have hcsb : ∀ b ∈ cs, b < 256 := by
    intro b hbc
    exact hshab _ b (List.take_subset _ _ hbc)
  have hfullb : ∀ b ∈ payload ++ cs, b < 256 := by
    intro b hbf
    rcases List.mem_append.mp hbf with h1 | h1
    · rcases List.mem_cons.mp h1 with h2 | h2
      · rw [h2]
        exact networkPubKeyHashVersion_lt network
      · exact hb b h2
    · exact hcsb b h1
  rw [base58_roundtrip _ hfullb]
  have hcl : cs.length = 4 := by
    rw [hcs]
    simp [sha256dChecksum, hsha]
  have hpl : payload.length = 21 := by
    rw [hpayload]
    simp [hlen]
  have hfl : (payload ++ cs).length = 25 := by
    simp [hpl, hcl]
  simp only [hfl]
  rw [if_pos (by omega)]
  have htake : (payload ++ cs).take (25 - 4) = payload := by
    have : 25 - 4 = payload.length := by omega
    rw [this]
    exact List.take_left payload cs
  have hdrop : (payload ++ cs).drop (25 - 4) = cs := by
    have : 25 - 4 = payload.length := by omega
    rw [this]
    exact List.drop_left payload cs
  simp only [htake, hdrop, ite_true]
  simp [hlen]

/-! ## Bech32 checksum (npm bech32 module) -/

/-- The bech32 character set as ASCII codes. -/
def bech32Charset : List Nat :=
  [113, 112, 122, 114, 121, 57, 120, 56, 103, 102, 50, 116,
   118, 100, 119, 48, 115, 51, 106, 110, 53, 52, 107, 104,
   99, 101, 54, 109, 117, 97, 55, 108]

/-- One polymod round: shift the low 25 bits up by 5 and xor in the
generator terms selected by the top 5 bits. -/
def bech32PolymodStep (pre : Nat) : Nat :=
  let b := pre >>> 25
  ((pre &&& 0x1ffffff) <<< 5)
    ^^^ (if b &&& 1 = 1 then 0x3b6a57b2 else 0)
    ^^^ (if (b >>> 1) &&& 1 = 1 then 0x26508e6d else 0)
    ^^^ (if (b >>> 2) &&& 1 = 1 then 0x1ea119fa else 0)
    ^^^ (if (b >>> 3) &&& 1 = 1 then 0x3d4233dd else 0)
    ^^^ (if (b >>> 4) &&& 1 = 1 then 0x2a1462b3 else 0)

/-- Folds the polymod over a word sequence, xoring each word in, as both the
encoder and the decoder do. -/
def bech32PolymodRun (s : Nat) (ws : List Nat) : Nat :=
  ws.foldl (fun chk w => bech32PolymodStep chk ^^^ w) s

/-- prefixChk: the polymod state after absorbing the human readable part
(high bits of each character, a zero separator, then low bits). -/
def bech32PrefixChk (hrp : List Nat) : Nat :=
  let chk1 := hrp.foldl (fun chk c => bech32PolymodStep chk ^^^ (c >>> 5)) 1
  let chk2 := bech32PolymodStep chk1
  hrp.foldl (fun chk c => bech32PolymodStep chk ^^^ (c &&& 0x1f)) chk2

/-- Six polymod rounds without data, run while creating a checksum. -/
def bech32SixSteps (s : Nat) : Nat :=
  bech32PolymodStep (bech32PolymodStep (bech32PolymodStep
    (bech32PolymodStep (bech32PolymodStep (bech32PolymodStep s)))))

/-- The six checksum words appended by the encoder: the 5-bit chunks of the
six free rounds xored with the encoding constant 1. -/
def bech32ChecksumWords (s : Nat) : List Nat :=
  let chk := bech32SixSteps s ^^^ 1
  [(chk >>> 25) &&& 0x1f, (chk >>> 20) &&& 0x1f, (chk >>> 15) &&& 0x1f,
   (chk >>> 10) &&& 0x1f, (chk >>> 5) &&& 0x1f, chk &&& 0x1f]

theorem xor_rotate (a e g : Nat) : a ^^^ e ^^^ g = a ^^^ g ^^^ e := by
  rw [Nat.xor_assoc, Nat.xor_comm e g, ← Nat.xor_assoc]

theorem shiftRight25_xor_eq (x e : Nat) (he : e < 2 ^ 25) :
    (x ^^^ e) >>> 25 = x >>> 25 := by
  apply Nat.eq_of_testBit_eq
  intro i
  simp only [Nat.testBit_shiftRight, Nat.testBit_xor]
  have hbit : e.testBit (25 + i) = false :=
    Nat.testBit_eq_false_of_lt
      (lt_of_lt_of_le he (Nat.pow_le_pow_right (by norm_num) (by omega)))
  simp [hbit]

theorem mask_shift_xor (x e : Nat) (he : e < 2 ^ 25) :
    ((x ^^^ e) &&& 0x1ffffff) <<< 5 = ((x &&& 0x1ffffff) <<< 5) ^^^ (e <<< 5) := by
  have hM : (0x1ffffff : Nat) = 2 ^ 25 - 1 := by norm_num
  rw [hM]
  apply Nat.eq_of_testBit_eq
  intro i
  simp only [Nat.testBit_shiftLeft, Nat.testBit_xor, Nat.testBit_land,
    Nat.testBit_two_pow_sub_one]
  by_cases h5 : 5 ≤ i
  · by_cases h25 : i - 5 < 25
    · simp only [show decide (5 ≤ i) = true from by simp [h5],
        show decide (i - 5 < 25) = true from by simp [h25],
        Bool.true_and, Bool.and_true]
    · have he2 : e.testBit (i - 5) = false :=
        Nat.testBit_eq_false_of_lt
          (lt_of_lt_of_le he (Nat.pow_le_pow_right (by norm_num) (by omega)))
      simp [h5, h25, he2]
  · simp [h5]

theorem xor_float_out (a e g1 g2 g3 g4 g5 : Nat) :
    a ^^^ e ^^^ g1 ^^^ g2 ^^^ g3 ^^^ g4 ^^^ g5
      = (a ^^^ g1 ^^^ g2 ^^^ g3 ^^^ g4 ^^^ g5) ^^^ e := by
  rw [xor_rotate a e g1, xor_rotate (a ^^^ g1) e g2,
    xor_rotate (a ^^^ g1 ^^^ g2) e g3,
    xor_rotate (a ^^^ g1 ^^^ g2 ^^^ g3) e g4,
    xor_rotate (a ^^^ g1 ^^^ g2 ^^^ g3 ^^^ g4) e g5]

/-- Linearity of a polymod round in the low 25 bits of the state. -/
theorem bech32PolymodStep_xor (x e : Nat) (he : e < 2 ^ 25) :
    bech32PolymodStep (x ^^^ e) = bech32PolymodStep x ^^^ (e <<< 5) := by
  unfold bech32PolymodStep
  simp only
  rw [shiftRight25_xor_eq x e he, mask_shift_xor x e he]
  exact xor_float_out _ _ _ _ _ _ _

theorem bech32PolymodStep_lt (s : Nat) : bech32PolymodStep s < 2 ^ 30 := by
  unfold bech32PolymodStep
  have hbase : (s &&& 0x1ffffff) <<< 5 < 2 ^ 30 := by
    have h1 : s &&& 0x1ffffff ≤ 0x1ffffff := Nat.and_le_right
    have h2 : (s &&& 0x1ffffff) <<< 5 = (s &&& 0x1ffffff) * 32 := by
      rw [Nat.shiftLeft_eq]
    rw [h2]
    have : (0x1ffffff : Nat) * 32 < 2 ^ 30 := by norm_num
    calc (s &&& 0x1ffffff) * 32 ≤ 0x1ffffff * 32 := by
          exact Nat.mul_le_mul_right 32 h1
      _ < 2 ^ 30 := this
  refine Nat.xor_lt_two_pow (Nat.xor_lt_two_pow (Nat.xor_lt_two_pow
    (Nat.xor_lt_two_pow (Nat.xor_lt_two_pow hbase ?_) ?_) ?_) ?_) ?_
  all_goals split <;> norm_num

/-- Absorbing words into the polymod run, each below 32, keeps track of the
absorbed value: it appears in the final state as an xor after the free
rounds. -/
theorem bech32PolymodRun_inject :
    ∀ (ws : List Nat) (s a : Nat), (∀ w ∈ ws, w < 32) →
      a < 2 ^ (30 - 5 * ws.length) → ws.length ≤ 6 →
      bech32PolymodRun (s ^^^ a) ws
        = bech32PolymodRun s (List.replicate ws.length 0)
            ^^^ ws.foldl (fun acc w => (acc <<< 5) ^^^ w) a := by
  intro ws
  induction ws with
  | nil =>
    intro s a hw ha hlen
    simp [bech32PolymodRun]
  | cons w rest ih =>
    intro s a hw ha hlen
    have ha25 : a < 2 ^ 25 := by
      have h1 : (2 : Nat) ^ (30 - 5 * (w :: rest).length) ≤ 2 ^ 25 := by
        apply Nat.pow_le_pow_right (by norm_num)
        simp
        omega
      omega
    have hstep : bech32PolymodStep (s ^^^ a) = bech32PolymodStep s ^^^ (a <<< 5) :=
      bech32PolymodStep_xor s a ha25
    have hshift : a <<< 5 < 2 ^ (30 - 5 * rest.length - 5 + 5) := by
      rw [Nat.shiftLeft_eq]
      have hlen2 : (w :: rest).length = rest.length + 1 := rfl
      rw [hlen2] at ha
      have : 30 - 5 * (rest.length + 1) = 30 - 5 * rest.length - 5 := by omega
      rw [this] at ha
      calc a * 2 ^ 5 < 2 ^ (30 - 5 * rest.length - 5) * 2 ^ 5 :=
            (Nat.mul_lt_mul_right (by norm_num)).mpr ha
        _ = 2 ^ (30 - 5 * rest.length - 5 + 5) := by rw [← pow_add]
    have hrest : rest.length ≤ 5 := by
      have := hlen
      simp at this
      omega
    have hanew : (a <<< 5) ^^^ w < 2 ^ (30 - 5 * rest.length) := by
      have h1 : a <<< 5 < 2 ^ (30 - 5 * rest.length) := by
        have : 30 - 5 * rest.length - 5 + 5 = 30 - 5 * rest.length := by omega
        rw [this] at hshift
        exact hshift
      have h2 : w < 2 ^ (30 - 5 * rest.length) := by
        have hw32 : w < 32 := hw w (List.mem_cons_self _ _)
        have : (32 : Nat) = 2 ^ 5 := by norm_num
        have h5 : (2 : Nat) ^ 5 ≤ 2 ^ (30 - 5 * rest.length) := by
          apply Nat.pow_le_pow_right (by norm_num)
          omega
        omega
      exact Nat.xor_lt_two_pow h1 h2
    have hrun : bech32PolymodRun (s ^^^ a) (w :: rest)
        = bech32PolymodRun ((bech32PolymodStep s ^^^ (a <<< 5)) ^^^ w) rest := by
      simp [bech32PolymodRun, hstep]
    rw [hrun, Nat.xor_assoc]
    rw [ih (bech32PolymodStep s) ((a <<< 5) ^^^ w)
      (fun x hx => hw x (List.mem_cons_of_mem _ hx)) hanew (by omega)]
    simp [bech32PolymodRun, List.replicate_succ]

theorem xor_shiftLeft_distrib (a b n : Nat) :
    (a ^^^ b) <<< n = (a <<< n) ^^^ (b <<< n) := by
  apply Nat.eq_of_testBit_eq
  intro i
  simp only [Nat.testBit_shiftLeft, Nat.testBit_xor]
  by_cases h : n ≤ i <;> simp [h]

theorem shiftLeft_shiftLeft_add (a m n : Nat) : (a <<< m) <<< n = a <<< (m + n) := by
  simp [Nat.shiftLeft_eq, pow_add, Nat.mul_assoc]

theorem testBit_31_eq (k : Nat) : Nat.testBit 0x1f k = decide (k < 5) := by
  have h : (0x1f : Nat) = 2 ^ 5 - 1 := by norm_num
  rw [h]
  exact Nat.testBit_two_pow_sub_one 5 k

theorem chunk_testBit (u a i : Nat) :
    ((((u >>> a) &&& 0x1f) <<< a).testBit i)
      = (u.testBit i && decide (a ≤ i) && decide (i < a + 5)) := by
  simp only [Nat.testBit_shiftLeft, Nat.testBit_land, Nat.testBit_shiftRight,
    testBit_31_eq]
  by_cases h : a ≤ i
  · have h1 : a + (i - a) = i := by omega
    have h2 : (i - a < 5) = (i < a + 5) := propext ⟨fun h2 => by omega, fun h2 => by omega⟩
    simp [h, h1, h2, Bool.and_comm, Bool.and_assoc]
  · simp [h]

theorem flat_recompose (u : Nat) (hu : u < 2 ^ 30) :
    ((((u >>> 25) &&& 0x1f) <<< 25) ^^^ (((u >>> 20) &&& 0x1f) <<< 20)
      ^^^ (((u >>> 15) &&& 0x1f) <<< 15) ^^^ (((u >>> 10) &&& 0x1f) <<< 10)
      ^^^ (((u >>> 5) &&& 0x1f) <<< 5) ^^^ (((u >>> 0) &&& 0x1f) <<< 0)) = u := by
  apply Nat.eq_of_testBit_eq
  intro i
  simp only [Nat.testBit_xor, chunk_testBit]
  by_cases hc0 : i < 5
  · simp [show ¬ 5 ≤ i from by omega, show ¬ 10 ≤ i from by omega,
      show ¬ 15 ≤ i from by omega, show ¬ 20 ≤ i from by omega,
      show ¬ 25 ≤ i from by omega, show i < 0 + 5 from by omega]
  by_cases hc1 : i < 10
  · simp [show 5 ≤ i from by omega, show i < 5 + 5 from by omega,
      show ¬ i < 0 + 5 from by omega, show ¬ 10 ≤ i from by omega,
      show ¬ 15 ≤ i from by omega, show ¬ 20 ≤ i from by omega,
      show ¬ 25 ≤ i from by omega]
  by_cases hc2 : i < 15
  · simp [show 10 ≤ i from by omega, show i < 10 + 5 from by omega,
      show ¬ i < 0 + 5 from by omega, show ¬ i < 5 + 5 from by omega,
      show ¬ 15 ≤ i from by omega, show ¬ 20 ≤ i from by omega,
      show ¬ 25 ≤ i from by omega]
  by_cases hc3 : i < 20
  · simp [show 15 ≤ i from by omega, show i < 15 + 5 from by omega,
      show ¬ i < 0 + 5 from by omega, show ¬ i < 5 + 5 from by omega,
      show ¬ i < 10 + 5 from by omega, show ¬ 20 ≤ i from by omega,
      show ¬ 25 ≤ i from by omega]
  by_cases hc4 : i < 25
  · simp [show 20 ≤ i from by omega, show i < 20 + 5 from by omega,
      show ¬ i < 0 + 5 from by omega, show ¬ i < 5 + 5 from by omega,
      show ¬ i < 10 + 5 from by omega, show ¬ i < 15 + 5 from by omega,
      show ¬ 25 ≤ i from by omega]
  by_cases hc5 : i < 30
  · simp [show 25 ≤ i from by omega, show i < 25 + 5 from by omega,
      show ¬ i < 0 + 5 from by omega, show ¬ i < 5 + 5 from by omega,
      show ¬ i < 10 + 5 from by omega, show ¬ i < 15 + 5 from by omega,
      show ¬ i < 20 + 5 from by omega]
  · have hbit : u.testBit i = false :=
      Nat.testBit_eq_false_of_lt
        (lt_of_lt_of_le hu (Nat.pow_le_pow_right (by norm_num) (by omega)))
    simp [hbit]

theorem bech32SixSteps_lt (s : Nat) : bech32SixSteps s < 2 ^ 30 :=
  bech32PolymodStep_lt _

/-- The checksum created by the bech32 encoder makes the decoder polymod run
end at the encoding constant 1. -/
theorem bech32_checksum_verifies (s : Nat) :
    bech32PolymodRun s (bech32ChecksumWords s) = 1 := by
  set u := bech32SixSteps s ^^^ 1 with hu
  have hu30 : u < 2 ^ 30 :=
    Nat.xor_lt_two_pow (bech32SixSteps_lt s) (by norm_num)
  have hwords : ∀ w ∈ bech32ChecksumWords s, w < 32 := by
    intro w hw
    unfold bech32ChecksumWords at hw
    rw [← hu] at hw
    simp only [List.mem_cons, List.not_mem_nil, or_false] at hw
    have hle : ∀ y : Nat, y &&& 0x1f < 32 := by
      intro y
      have h31 : y &&& 0x1f ≤ 0x1f := Nat.and_le_right
      omega
    rcases hw with h | h | h | h | h | h <;> rw [h] <;> exact hle _
  have hlen : (bech32ChecksumWords s).length = 6 := by
    unfold bech32ChecksumWords
    rfl
  have hrun0 : bech32PolymodRun (s ^^^ 0) (bech32ChecksumWords s)
      = bech32PolymodRun s (List.replicate 6 0)
        ^^^ (bech32ChecksumWords s).foldl (fun acc w => (acc <<< 5) ^^^ w) 0 := by
    rw [← hlen]
    exact bech32PolymodRun_inject (bech32ChecksumWords s) s 0 hwords
      (by rw [hlen]; norm_num) (by rw [hlen])
  rw [Nat.xor_zero] at hrun0
  rw [hrun0]
  have hzeros : bech32PolymodRun s (List.replicate 6 0) = bech32SixSteps s := by
    simp [bech32PolymodRun, bech32SixSteps, List.replicate_succ]
  have hfold : (bech32ChecksumWords s).foldl (fun acc w => (acc <<< 5) ^^^ w) 0 = u := by
    unfold bech32ChecksumWords
    rw [← hu]
    simp only [List.foldl]
    rw [Nat.zero_shiftLeft, Nat.zero_xor]
    rw [xor_shiftLeft_distrib, xor_shiftLeft_distrib, xor_shiftLeft_distrib,
      xor_shiftLeft_distrib,
      xor_shiftLeft_distrib, xor_shiftLeft_distrib, xor_shiftLeft_distrib,
      xor_shiftLeft_distrib, xor_shiftLeft_distrib, xor_shiftLeft_distrib]
    simp only [shiftLeft_shiftLeft_add]
    norm_num
    have h25 : u >>> 25 = u >>> 25 >>> 0 := rfl
    have hfinal := flat_recompose u hu30
    rw [Nat.shiftLeft_zero] at hfinal
    calc ((u >>> 25 &&& 0x1f) <<< 25) ^^^ ((u >>> 20 &&& 0x1f) <<< 20)
          ^^^ ((u >>> 15 &&& 0x1f) <<< 15) ^^^ ((u >>> 10 &&& 0x1f) <<< 10)
          ^^^ ((u >>> 5 &&& 0x1f) <<< 5) ^^^ (u &&& 0x1f)
        = ((u >>> 25 &&& 0x1f) <<< 25) ^^^ ((u >>> 20 &&& 0x1f) <<< 20)
          ^^^ ((u >>> 15 &&& 0x1f) <<< 15) ^^^ ((u >>> 10 &&& 0x1f) <<< 10)
          ^^^ ((u >>> 5 &&& 0x1f) <<< 5) ^^^ ((u >>> 0) &&& 0x1f) := by rfl
      _ = u := hfinal
  rw [hzeros, hfold, hu]
  rw [← Nat.xor_assoc, Nat.xor_self, Nat.zero_xor]

/-! ## Bit group conversion (bech32 toWords and fromWords) -/

/-- Inner while loop of the bech32 convert routine: emit output words of
outBits bits from the accumulator while enough bits are pending.  The
positivity guard on outBits (always satisfied at the two call sites, 5 and
8) makes the recursion terminate. -/
def emitWhile (outBits value bits : Nat) : List Nat × Nat :=
  if h : 0 < outBits ∧ outBits ≤ bits then
    let w := (value >>> (bits - outBits)) &&& ((1 <<< outBits) - 1)
    let rest := emitWhile outBits value (bits - outBits)
    (w :: rest.1, rest.2)
  else ([], bits)
termination_by bits
decreasing_by omega

/-- Accumulation loop of the bech32 convert routine: absorb each input word
and emit output words greedily.  Returns the emitted words and the final
accumulator and pending bit count. -/
def convertBitsCore (inBits outBits : Nat) :
    List Nat → Nat → Nat → List Nat × Nat × Nat
  | [], value, bits => ([], value, bits)
  | p :: rest, value, bits =>
    let value2 := (value <<< inBits) ||| p
    let bits2 := bits + inBits
    let em := emitWhile outBits value2 bits2
    let r := convertBitsCore inBits outBits rest value2 em.2
    (em.1 ++ r.1, r.2)

/-- bech32 toWords: 8-to-5 bit conversion, padding the pending bits with
zeros on the right. -/
def bech32ToWords (bytes : List Nat) : List Nat :=
  let r := convertBitsCore 8 5 bytes 0 0
  if 0 < r.2.2 then r.1 ++ [(r.2.1 <<< (5 - r.2.2)) &&& 0x1f] else r.1

/-- bech32 fromWords: 5-to-8 bit conversion, rejecting excess or nonzero
padding. -/
def bech32FromWords (words : List Nat) : Option (List Nat) :=
  let r := convertBitsCore 5 8 words 0 0
  if 5 ≤ r.2.2 then none
  else if (r.2.1 <<< (8 - r.2.2)) &&& 0xff ≠ 0 then none
  else some r.1

/-- The low width bits of a number, most significant first. -/
def natBits : Nat → Nat → List Bool
  | 0, _ => []
  | w + 1, n => n.testBit w :: natBits w n

theorem natBits_length (w n : Nat) : (natBits w n).length = w := by
  induction w with
  | zero => rfl
  | succ w ih => simp [natBits, ih]

theorem natBits_congr (w : Nat) :
    ∀ m n : Nat, (∀ i, i < w → m.testBit i = n.testBit i) → natBits w m = natBits w n := by
  induction w with
  | zero => intro m n _; rfl
  | succ w ih =>
    intro m n h
    simp only [natBits]
    rw [h w (by omega), ih m n (fun i hi => h i (by omega))]

theorem natBits_split (j : Nat) :
    ∀ (a : Nat) (n : Nat), natBits (a + j) n = natBits a (n >>> j) ++ natBits j n := by
  intro a
  induction a with
  | zero =>
    intro n
    simp [natBits]
  | succ a ih =>
    intro n
    have h1 : a + 1 + j = (a + j) + 1 := by omega
    rw [h1]
    simp only [natBits, List.cons_append]
    rw [ih n]
    have h2 : (n >>> j).testBit a = n.testBit (a + j) := by
      rw [Nat.testBit_shiftRight]
      congr 1
      omega
    rw [h2]

theorem natBits_testBit (w : Nat) :
    ∀ m n : Nat, natBits w m = natBits w n → ∀ i, i < w → m.testBit i = n.testBit i := by
  induction w with
  | zero => intro m n _ i hi; omega
  | succ w ih =>
    intro m n h i hi
    simp only [natBits, List.cons.injEq] at h
    rcases Nat.lt_succ_iff_lt_or_eq.mp hi with h2 | h2
    · exact ih m n h.2 i h2
    · rw [h2]
      exact h.1

theorem natBits_inj (w m n : Nat) (hm : m < 2 ^ w) (hn : n < 2 ^ w)
    (h : natBits w m = natBits w n) : m = n := by
  apply Nat.eq_of_testBit_eq
  intro i
  by_cases hi : i < w
  · exact natBits_testBit w m n h i hi
  · rw [Nat.testBit_eq_false_of_lt
      (lt_of_lt_of_le hm (Nat.pow_le_pow_right (by norm_num) (by omega)))]
    rw [Nat.testBit_eq_false_of_lt
      (lt_of_lt_of_le hn (Nat.pow_le_pow_right (by norm_num) (by omega)))]

theorem natBits_flatten_inj (w : Nat) :
    ∀ xs ys : List Nat, (∀ x ∈ xs, x < 2 ^ w) → (∀ y ∈ ys, y < 2 ^ w) →
      (xs.map (natBits w)).flatten = (ys.map (natBits w)).flatten →
      xs.length = ys.length → xs = ys := by
  intro xs
  induction xs with
  | nil =>
    intro ys _ _ _ hlen
    cases ys with
    | nil => rfl
    | cons y ys => simp at hlen
  | cons x xs ih =>
    intro ys hx hy hflat hlen
    cases ys with
    | nil => simp at hlen
    | cons y ys =>
      simp only [List.map_cons, List.flatten_cons] at hflat
      have hlens : (natBits w x).length = (natBits w y).length := by
        rw [natBits_length, natBits_length]
      rcases List.append_inj hflat hlens with ⟨hhead, htail⟩
      have hxy : x = y :=
        natBits_inj w x y (hx x (List.mem_cons_self _ _))
          (hy y (List.mem_cons_self _ _)) hhead
      rw [hxy, ih ys (fun a ha => hx a (List.mem_cons_of_mem _ ha))
        (fun a ha => hy a (List.mem_cons_of_mem _ ha)) htail (by simpa using hlen)]

theorem emitWhile_spec (outBits : Nat) (ho : 0 < outBits) (value : Nat) :
    ∀ bits, (emitWhile outBits value bits).2 = bits % outBits
      ∧ (∀ w ∈ (emitWhile outBits value bits).1, w < 2 ^ outBits)
      ∧ ((emitWhile outBits value bits).1.map (natBits outBits)).flatten
          = natBits (bits - bits % outBits) (value >>> (bits % outBits)) := by
  intro bits
  induction bits using Nat.strong_induction_on with
  | _ bits ih =>
    rw [emitWhile]
    by_cases hb : outBits ≤ bits
    · simp only [ho, hb, and_self, dite_true]
      have hrec := ih (bits - outBits) (by omega)
      have hmod : (bits - outBits) % outBits = bits % outBits := by
        conv_rhs => rw [← Nat.sub_add_cancel hb]
        rw [Nat.add_mod_right]
      refine ⟨by simpa [hmod] using hrec.1, ?_, ?_⟩
      · intro w hw
        simp only [List.mem_cons] at hw
        rcases hw with h | h
        · rw [h]
          have hmask : (1 <<< outBits) - 1 = 2 ^ outBits - 1 := by
            rw [Nat.one_shiftLeft]
          rw [hmask]
          have h1 : (value >>> (bits - outBits)) &&& (2 ^ outBits - 1) ≤ 2 ^ outBits - 1 :=
            Nat.and_le_right
          have h2 : 0 < 2 ^ outBits := Nat.pos_pow_of_pos _ (by norm_num)
          omega
        · exact hrec.2.1 w h
      · simp only [List.map_cons, List.flatten_cons]
        rw [hrec.2.2, hmod]
        have hrlt : bits % outBits < outBits := Nat.mod_lt _ ho
        have hble : bits % outBits ≤ bits - outBits := by
          rw [← hmod]
          exact Nat.mod_le _ _
        have hsplit := natBits_split (bits - outBits - bits % outBits) outBits
          (value >>> (bits % outBits))
        have harith : outBits + (bits - outBits - bits % outBits)
            = bits - bits % outBits := by omega
        rw [harith] at hsplit
        rw [hsplit]
        congr 1
        · apply natBits_congr
          intro i hi
          have hmask : (1 <<< outBits) - 1 = 2 ^ outBits - 1 := by
            rw [Nat.one_shiftLeft]
          rw [hmask]
          rw [Nat.testBit_land, Nat.testBit_two_pow_sub_one]
          rw [Nat.testBit_shiftRight, Nat.testBit_shiftRight, Nat.testBit_shiftRight]
          have h1 : bits - outBits + i
              = bits % outBits + (bits - outBits - bits % outBits + i) := by omega
          rw [h1]
          simp [hi]
    · simp only [hb, and_false, dite_false]
      have hmod : bits % outBits = bits := Nat.mod_eq_of_lt (by omega)
      refine ⟨hmod.symm, by intro w hw; simp at hw, ?_⟩
      simp [hmod, natBits]

theorem convertBitsCore_spec (inBits outBits : Nat) (ho : 0 < outBits) :
    ∀ (data : List Nat) (value bits : Nat), bits < outBits →
      (∀ p ∈ data, p < 2 ^ inBits) →
      (convertBitsCore inBits outBits data value bits).2.2
          = (bits + inBits * data.length) % outBits
      ∧ (∀ w ∈ (convertBitsCore inBits outBits data value bits).1, w < 2 ^ outBits)
      ∧ ((convertBitsCore inBits outBits data value bits).1.map (natBits outBits)).flatten
            ++ natBits (convertBitsCore inBits outBits data value bits).2.2
                (convertBitsCore inBits outBits data value bits).2.1
          = natBits bits value ++ (data.map (natBits inBits)).flatten := by
  intro data
  induction data with
  | nil =>
    intro value bits hbits hdata
    refine ⟨by simp [convertBitsCore, Nat.mod_eq_of_lt hbits], ?_, ?_⟩
    · intro w hw
      simp [convertBitsCore] at hw
    · simp [convertBitsCore]
  | cons p rest ih =>
    intro value bits hbits hdata
    have hp : p < 2 ^ inBits := hdata p (List.mem_cons_self _ _)
    have hem := emitWhile_spec outBits ho ((value <<< inBits) ||| p) (bits + inBits)
    have hv2bits : natBits (bits + inBits) ((value <<< inBits) ||| p)
        = natBits bits value ++ natBits inBits p := by
      rw [natBits_split inBits bits ((value <<< inBits) ||| p)]
      congr 1
      · apply natBits_congr
        intro i hi2
        rw [Nat.testBit_shiftRight, Nat.testBit_or, Nat.testBit_shiftLeft]
        have hpbit : p.testBit (inBits + i) = false :=
          Nat.testBit_eq_false_of_lt
            (lt_of_lt_of_le hp (Nat.pow_le_pow_right (by norm_num) (by omega)))
        have hidx : inBits + i - inBits = i := by omega
        simp [hpbit, hidx]
      · apply natBits_congr
        intro i hi2
        rw [Nat.testBit_or, Nat.testBit_shiftLeft]
        have hni : ¬ inBits ≤ i := by omega
        simp [hni]
    have hrec := ih ((value <<< inBits) ||| p)
      ((emitWhile outBits ((value <<< inBits) ||| p) (bits + inBits)).2)
      (by rw [hem.1]; exact Nat.mod_lt _ ho)
      (fun q hq => hdata q (List.mem_cons_of_mem _ hq))
    refine ⟨?_, ?_, ?_⟩
    · simp only [convertBitsCore]
      rw [hrec.1, hem.1, Nat.mod_add_mod]
      have harith : bits + inBits + inBits * rest.length
          = bits + inBits * (p :: rest).length := by
        simp [List.length_cons]
        ring
      rw [harith]
    · intro w hw
      simp only [convertBitsCore, List.mem_append] at hw
      rcases hw with h | h
      · exact hem.2.1 w h
      · exact hrec.2.1 w h
    · simp only [convertBitsCore, List.map_append, List.flatten_append, List.map_cons,
        List.flatten_cons]
      rw [List.append_assoc, hrec.2.2]
      rw [← List.append_assoc, hem.2.2, hem.1]
      have hble : bits + inBits - (bits + inBits) % outBits + (bits + inBits) % outBits
          = bits + inBits := by
        have h1 : (bits + inBits) % outBits ≤ bits + inBits := Nat.mod_le _ _
        omega
      have hsplit := natBits_split ((bits + inBits) % outBits)
        (bits + inBits - (bits + inBits) % outBits) ((value <<< inBits) ||| p)
      rw [hble] at hsplit
      rw [← hsplit, hv2bits, List.append_assoc]

theorem flatten_natBits_length (w : Nat) (ws : List Nat) :
    ((ws.map (natBits w)).flatten).length = w * ws.length := by
  induction ws with
  | nil => simp
  | cons a rest ih =>
    simp [ih, natBits_length]
    ring

theorem bech32ToWords_spec (bytes : List Nat) (hb : ∀ b ∈ bytes, b < 256)
    (hlen : bytes.length = 20) :
    (∀ w ∈ bech32ToWords bytes, w < 32)
    ∧ (bech32ToWords bytes).length = 32
    ∧ ((bech32ToWords bytes).map (natBits 5)).flatten = (bytes.map (natBits 8)).flatten := by
  have hcore := convertBitsCore_spec 8 5 (by norm_num) bytes 0 0 (by norm_num)
    (by intro p hp; have := hb p hp; norm_num; omega)
  have hfin : (convertBitsCore 8 5 bytes 0 0).2.2 = 0 := by
    rw [hcore.1, hlen]
  have hwords : bech32ToWords bytes = (convertBitsCore 8 5 bytes 0 0).1 := by
    unfold bech32ToWords
    simp only [hfin]
    simp
  have hflat : ((convertBitsCore 8 5 bytes 0 0).1.map (natBits 5)).flatten
      = (bytes.map (natBits 8)).flatten := by
    have h2 := hcore.2.2
    rw [hfin] at h2
    simpa [natBits] using h2
  refine ⟨?_, ?_, ?_⟩
  · intro w hw
    rw [hwords] at hw
    have := hcore.2.1 w hw
    norm_num at this
    exact this
  · have hl1 : (((convertBitsCore 8 5 bytes 0 0).1.map (natBits 5)).flatten).length
        = ((bytes.map (natBits 8)).flatten).length := by rw [hflat]
    rw [flatten_natBits_length, flatten_natBits_length, hlen] at hl1
    rw [hwords]
    omega
  · rw [hwords]
    exact hflat

theorem bech32FromWords_toWords (bytes : List Nat) (hb : ∀ b ∈ bytes, b < 256)
    (hlen : bytes.length = 20) :
    bech32FromWords (bech32ToWords bytes) = some bytes := by
  obtain ⟨hw32, hwlen, hwflat⟩ := bech32ToWords_spec bytes hb hlen
  have hcore := convertBitsCore_spec 5 8 (by norm_num) (bech32ToWords bytes) 0 0
    (by norm_num) (by intro p hp; have := hw32 p hp; norm_num; omega)
  have hfin : (convertBitsCore 5 8 (bech32ToWords bytes) 0 0).2.2 = 0 := by
    rw [hcore.1, hwlen]
  have hpad : ((convertBitsCore 5 8 (bech32ToWords bytes) 0 0).2.1 <<< (8 - 0)) &&& 0xff = 0 := by
    apply Nat.eq_of_testBit_eq
    intro i
    have hff : (0xff : Nat) = 2 ^ 8 - 1 := by norm_num
    rw [Nat.testBit_land, hff, Nat.testBit_two_pow_sub_one, Nat.testBit_shiftLeft,
      Nat.zero_testBit]
    by_cases h8 : i < 8
    · simp [show ¬ (8 - 0 ≤ i) from by omega]
    · simp [show ¬ (i < 8) from h8]
  have hflat8 : (((convertBitsCore 5 8 (bech32ToWords bytes) 0 0).1).map (natBits 8)).flatten
      = (bytes.map (natBits 8)).flatten := by
    have h2 := hcore.2.2
    rw [hfin] at h2
    rw [show natBits 0 ((convertBitsCore 5 8 (bech32ToWords bytes) 0 0).2.1) = [] from rfl,
      show natBits 0 0 = [] from rfl, List.append_nil, List.nil_append] at h2
    rw [h2, hwflat]
  have hlen8 : ((convertBitsCore 5 8 (bech32ToWords bytes) 0 0).1).length = bytes.length := by
    have hl1 : ((((convertBitsCore 5 8 (bech32ToWords bytes) 0 0).1).map (natBits 8)).flatten).length
        = ((bytes.map (natBits 8)).flatten).length := by rw [hflat8]
    rw [flatten_natBits_length, flatten_natBits_length] at hl1
    omega
  have hbytes : (convertBitsCore 5 8 (bech32ToWords bytes) 0 0).1 = bytes := by
    apply natBits_flatten_inj 8 _ bytes ?_ ?_ hflat8 hlen8
    · intro x hx
      exact hcore.2.1 x hx
    · intro y hy
      have := hb y hy
      norm_num
      omega
  unfold bech32FromWords
  simp only [hfin, hpad]
  simp [hbytes]

/-- Maps every data character to its bech32 word value, failing on a
character outside the charset. -/
def bech32CharValues : List Nat → Option (List Nat)
  | [] => some []
  | c :: rest =>
    match charValueIn bech32Charset c, bech32CharValues rest with
    | some d, some ds => some (d :: ds)
    | _, _ => none

/-- bech32 encode: human readable part, the separator 1 (ASCII 49), then the
data and checksum words as charset characters. -/
def bech32Encode (hrp : List Nat) (words : List Nat) : List Nat :=
  let chk := bech32PolymodRun (bech32PrefixChk hrp) words
  hrp ++ [49]
    ++ (words ++ bech32ChecksumWords chk).map (fun w => bech32Charset.getD w 0)

/-- Splits an address at the last separator character 1 (ASCII 49). -/
def splitAtLastSep (chars : List Nat) : Option (List Nat × List Nat) :=
  let revSuffix := chars.reverse.takeWhile (fun c => !(c == 49))
  let rest := chars.reverse.dropWhile (fun c => !(c == 49))
  match rest with
  | [] => none
  | _ :: hrpRev => some (hrpRev.reverse, revSuffix.reverse)

/-- bech32 decode: length limits, split at the last separator, map the data
characters to words, verify the checksum, and return the human readable
part with the words stripped of the six checksum words. -/
def bech32Decode (chars : List Nat) : Option (List Nat × List Nat) :=
  if chars.length < 8 ∨ 90 < chars.length then none
  else
    match splitAtLastSep chars with
    | none => none
    | some (hrp, dataChars) =>
      if hrp.length = 0 then none
      else if dataChars.length < 6 then none
      else
        match bech32CharValues dataChars with
        | none => none
        | some values =>
          if bech32PolymodRun (bech32PrefixChk hrp) values = 1 then
            some (hrp, values.take (values.length - 6))
          else none

/-- payments.p2wpkh address construction: bech32 of witness version 0 and
the 8-to-5 converted hash. -/
def p2wpkhAddressOf (network : Network) (pubKeyHash : List Nat) : List Nat :=
  bech32Encode (networkBech32Hrp network) (0 :: bech32ToWords pubKeyHash)

/-- payments.p2wpkh hash extraction from an address: bech32 decode, shift
the witness version word, convert the remaining words back to bytes, then
require the network prefix, version 0 and a 20-byte program. -/
def p2wpkhHashFromAddress (network : Network) (addr : List Nat) :
    Option (List Nat) :=
  match bech32Decode addr with
  | none => none
  | some (hrp, words) =>
    match words with
    | [] => none
    | version :: rest =>
      match bech32FromWords rest with
      | none => none
      | some data =>
        if hrp = networkBech32Hrp network ∧ version = 0 ∧ data.length = 20 then
          some data
        else none

theorem bech32ChecksumWords_lt (s : Nat) :
    ∀ w ∈ bech32ChecksumWords s, w < 32 := by
  intro w hw
  unfold bech32ChecksumWords at hw
  simp only [List.mem_cons, List.not_mem_nil, or_false] at hw
  have hle : ∀ y : Nat, y &&& 0x1f < 32 := by
    intro y
    have h31 : y &&& 0x1f ≤ 0x1f := Nat.and_le_right
    omega
  rcases hw with h | h | h | h | h | h <;> rw [h] <;> exact hle _

theorem charValueIn_bech32_of_word :
    ∀ w : Fin 32, charValueIn bech32Charset (bech32Charset.getD w.val 0) = some w.val := by
  decide

theorem bech32Charset_no_sep :
    ∀ w : Fin 32, (bech32Charset.getD w.val 0 == 49) = false := by
  decide

theorem bech32CharValues_map_words (ws : List Nat) (h : ∀ w ∈ ws, w < 32) :
    bech32CharValues (ws.map (fun w => bech32Charset.getD w 0)) = some ws := by
  induction ws with
  | nil => rfl
  | cons w rest ih =>
    have hw : w < 32 := h w (List.mem_cons_self _ _)
    have hchar := charValueIn_bech32_of_word ⟨w, hw⟩
    have hrest := ih (fun x hx => h x (List.mem_cons_of_mem _ hx))
    simp only [List.map_cons, bech32CharValues, hchar, hrest]

theorem takeWhile_append_stop (p : Nat → Bool) :
    ∀ (xs : List Nat) (z : Nat) (ys : List Nat), (∀ c ∈ xs, p c = true) →
      p z = false →
      (xs ++ z :: ys).takeWhile p = xs ∧ (xs ++ z :: ys).dropWhile p = z :: ys := by
  intro xs
  induction xs with
  | nil =>
    intro z ys _ hz
    simp [List.takeWhile_cons, List.dropWhile_cons, hz]
  | cons a rest ih =>
    intro z ys hx hz
    have ha : p a = true := hx a (List.mem_cons_self _ _)
    have hih := ih z ys (fun c hc => hx c (List.mem_cons_of_mem _ hc)) hz
    simp only [List.cons_append, List.takeWhile_cons, List.dropWhile_cons, ha,
      ite_true, if_true]
    exact ⟨by rw [hih.1], by rw [hih.2]⟩

theorem bech32PolymodRun_append (s : Nat) (a b : List Nat) :
    bech32PolymodRun s (a ++ b) = bech32PolymodRun (bech32PolymodRun s a) b := by
  unfold bech32PolymodRun
  exact List.foldl_append _ _ a b

/-- Decoding an encoded bech32 string recovers the human readable part and
the data words. -/
theorem bech32Decode_encode (hrp words : List Nat)
    (hhrp : ∀ c ∈ hrp, (c == 49) = false) (hhrplen : 0 < hrp.length)
    (hw : ∀ w ∈ words, w < 32)
    (hmin : 8 ≤ hrp.length + words.length + 7)
    (hmax : hrp.length + words.length + 7 ≤ 90) :
    bech32Decode (bech32Encode hrp words) = some (hrp, words) := by
  set chk := bech32PolymodRun (bech32PrefixChk hrp) words with hchk
  set allWords := words ++ bech32ChecksumWords chk with hall
  have hallw : ∀ w ∈ allWords, w < 32 := by
    intro w hw2
    rcases List.mem_append.mp hw2 with h | h
    · exact hw w h
    · exact bech32ChecksumWords_lt chk w h
  set mapped := allWords.map (fun w => bech32Charset.getD w 0) with hmapped
  have hcslen : (bech32ChecksumWords chk).length = 6 := rfl
  have hmlen : mapped.length = words.length + 6 := by
    rw [hmapped, List.length_map, hall, List.length_append, hcslen]
  have haddr : bech32Encode hrp words = hrp ++ 49 :: mapped := by
    unfold bech32Encode
    simp only [← hchk, ← hall, ← hmapped]
    simp
  have haddrlen : (bech32Encode hrp words).length = hrp.length + words.length + 7 := by
    rw [haddr]
    simp [hmlen]
    omega
  have hmapped49 : ∀ c ∈ mapped.reverse, (fun c => !(c == 49)) c = true := by
    intro c hc
    rw [List.mem_reverse, hmapped] at hc
    rcases List.mem_map.mp hc with ⟨w, hwin, hweq⟩
    have hw32 : w < 32 := hallw w hwin
    have := bech32Charset_no_sep ⟨w, hw32⟩
    rw [← hweq]
    simp only [Bool.not_eq_true']
    exact this
  have hsplit : splitAtLastSep (bech32Encode hrp words) = some (hrp, mapped) := by
    unfold splitAtLastSep
    rw [haddr]
    have hrev : (hrp ++ 49 :: mapped).reverse = mapped.reverse ++ 49 :: hrp.reverse := by
      simp
    rw [hrev]
    have hstop := takeWhile_append_stop (fun c => !(c == 49)) mapped.reverse 49
      hrp.reverse hmapped49 (by simp)
    rw [hstop.1, hstop.2]
    simp
  unfold bech32Decode
  rw [hsplit]
  rw [if_neg (by rw [haddrlen]; omega)]
  simp only
  rw [if_neg (by omega)]
  rw [if_neg (by rw [hmlen]; omega)]
  rw [hmapped, bech32CharValues_map_words allWords hallw]
  simp only
  have hverify : bech32PolymodRun (bech32PrefixChk hrp) allWords = 1 := by
    rw [hall, bech32PolymodRun_append, ← hchk]
    exact bech32_checksum_verifies chk
  rw [if_pos hverify]
  have htake : allWords.take (allWords.length - 6) = words := by
    rw [hall]
    have hlen2 : (words ++ bech32ChecksumWords chk).length - 6 = words.length := by
      rw [List.length_append, hcslen]
      omega
    rw [hlen2]
    exact List.take_left words _
  rw [htake]

/-- Round trip of the P2WPKH bech32 encoding. -/
theorem p2wpkh_roundtrip (network : Network) (h : List Nat)
    (hb : ∀ b ∈ h, b < 256) (hlen : h.length = 20) :
    p2wpkhHashFromAddress network (p2wpkhAddressOf network h) = some h := by
  obtain ⟨hw32, hwlen, _⟩ := bech32ToWords_spec h hb hlen
  have hhrp : ∀ c ∈ networkBech32Hrp network, (c == 49) = false := by
    cases network <;> decide
  have hhrplen : 0 < (networkBech32Hrp network).length := by
    cases network <;> decide
  have hwords : ∀ w ∈ 0 :: bech32ToWords h, w < 32 := by
    intro w hw
    rcases List.mem_cons.mp hw with h1 | h1
    · omega
    · exact hw32 w h1
  have hlen33 : (0 :: bech32ToWords h).length = 33 := by
    simp [hwlen]
  have hhrplen2 : (networkBech32Hrp network).length = 2 := by
    cases network <;> rfl
  have hdec := bech32Decode_encode (networkBech32Hrp network) (0 :: bech32ToWords h)
    hhrp hhrplen hwords (by rw [hlen33, hhrplen2]; omega) (by rw [hlen33, hhrplen2]; omega)
  unfold p2wpkhHashFromAddress p2wpkhAddressOf
  rw [hdec]
  simp only
  rw [bech32FromWords_toWords h hb hlen]
  simp [hlen]

/-! ## A bech32 address never decodes as a P2PKH address

addressToPublicKeyHash tries the P2PKH decoder first.  On a P2WPKH address
that attempt always fails: if all 42 characters happen to be base58 digits,
the decoded integer is at least 58 to the 41st power, so the byte string is
far longer than the 25 bytes of a base58check P2PKH payload. -/

theorem base58CharValues_length :
    ∀ (chars ds : List Nat), base58CharValues chars = some ds →
      ds.length = chars.length := by
  intro chars
  induction chars with
  | nil =>
    intro ds h
    simp only [base58CharValues, Option.some.injEq] at h
    rw [← h]
  | cons c rest ih =>
    intro ds h
    simp only [base58CharValues] at h
    rcases h1 : charValueIn base58Alphabet c with _ | d
    · rw [h1] at h
      cases h
    · rw [h1] at h
      rcases h2 : base58CharValues rest with _ | ds2
      · rw [h2] at h
        cases h
      · rw [h2] at h
        simp only [Option.some.injEq] at h
        rw [← h]
        simp [ih ds2 h2]

theorem base58CharValues_cons (c : Nat) (rest ds : List Nat)
    (h : base58CharValues (c :: rest) = some ds) :
    ∃ d ds2, charValueIn base58Alphabet c = some d ∧ ds = d :: ds2
      ∧ base58CharValues rest = some ds2 := by
  simp only [base58CharValues] at h
  rcases h1 : charValueIn base58Alphabet c with _ | d
  · rw [h1] at h
    cases h
  · rw [h1] at h
    rcases h2 : base58CharValues rest with _ | ds2
    · rw [h2] at h
      cases h
    · rw [h2] at h
      simp only [Option.some.injEq] at h
      exact ⟨d, ds2, rfl, h.symm, rfl⟩

theorem digitsBEToNat_head_lower (d : Nat) (rest : List Nat) (hd : 1 ≤ d) :
    58 ^ rest.length ≤ digitsBEToNat 58 (d :: rest) := by
  unfold digitsBEToNat
  rw [List.reverse_cons, Nat.ofDigits_append]
  have h1 : Nat.ofDigits 58 [d] = d := by
    simp [Nat.ofDigits]
  rw [h1, List.length_reverse]
  calc (58 : Nat) ^ rest.length = 58 ^ rest.length * 1 := by ring
    _ ≤ 58 ^ rest.length * d := Nat.mul_le_mul_left _ hd
    _ ≤ Nat.ofDigits 58 rest.reverse + 58 ^ rest.length * d := Nat.le_add_left _ _

theorem bytesBE_length_ge (v : Nat) (hv : 256 ^ 30 ≤ v) :
    31 ≤ (natToBytesBE v).length := by
  by_contra hc
  push_neg at hc
  have h1 : v < 256 ^ (Nat.digits 256 v).length :=
    Nat.lt_base_pow_length_digits (by norm_num)
  have h2 : (natToBytesBE v).length = (Nat.digits 256 v).length := by
    simp [natToBytesBE, natToDigitsBE]
  have h3 : (256 : Nat) ^ (Nat.digits 256 v).length ≤ 256 ^ 30 :=
    Nat.pow_le_pow_right (by norm_num) (by omega)
  omega

theorem pow58_41_ge : (256 : Nat) ^ 30 ≤ 58 ^ 41 := by norm_num

theorem p2wpkhAddressOf_head (network : Network) (h : List Nat) :
    (p2wpkhAddressOf network h).head? = some ((networkBech32Hrp network).headD 0) := by
  unfold p2wpkhAddressOf bech32Encode
  cases network <;> rfl

theorem p2wpkhAddressOf_length (network : Network) (h : List Nat)
    (hlen : h.length = 20) (hb : ∀ b ∈ h, b < 256) :
    (p2wpkhAddressOf network h).length = 42 := by
  obtain ⟨_, hwlen, _⟩ := bech32ToWords_spec h hb hlen
  unfold p2wpkhAddressOf bech32Encode
  cases network <;> simp [networkBech32Hrp, hwlen, bech32ChecksumWords]

theorem p2pkh_of_bech32_none (sha256 : List Nat → List Nat)
    (network network2 : Network) (h : List Nat)
    (hb : ∀ b ∈ h, b < 256) (hlen : h.length = 20) :
    p2pkhHashFromAddress sha256 network2 (p2wpkhAddressOf network h) = none := by
  have hhead := p2wpkhAddressOf_head network h
  have haddrlen := p2wpkhAddressOf_length network h hlen hb
  set addr := p2wpkhAddressOf network h with haddr
  rcases hmv : base58CharValues addr with _ | ds
  · unfold p2pkhHashFromAddress bs58checkDecode base58DecodeBytes
    rw [hmv]
  · rcases haddr2 : addr with _ | ⟨c0, rest⟩
    · rw [haddr2] at haddrlen
      simp at haddrlen
    · rw [haddr2] at hhead
      simp only [List.head?_cons, Option.some.injEq] at hhead
      have hmv2 : base58CharValues (c0 :: rest) = some ds := by
        rw [← haddr2]
        exact hmv
      have hdslen : ds.length = 42 := by
        rw [base58CharValues_length addr ds hmv, haddrlen]
      rcases base58CharValues_cons c0 rest ds hmv2 with ⟨d, ds2, hchar, hds, hrest⟩
      have hd1 : 1 ≤ d := by
        rw [hhead] at hchar
        cases network
        · rw [show ((networkBech32Hrp Network.mainnet).headD 0) = 98 from rfl] at hchar
          have h98 : charValueIn base58Alphabet 98 = some 34 := by decide
          rw [h98] at hchar
          simp only [Option.some.injEq] at hchar
          omega
        · rw [show ((networkBech32Hrp Network.testnet).headD 0) = 116 from rfl] at hchar
          have h116 : charValueIn base58Alphabet 116 = some 51 := by decide
          rw [h116] at hchar
          simp only [Option.some.injEq] at hchar
          omega
      have hzeros : (ds.takeWhile (fun b => b == 0)).length = 0 := by
        rw [hds]
        rw [List.takeWhile_cons]
        simp [beq_false_of_ne (by omega : d ≠ 0)]
      have hv : 256 ^ 30 ≤ digitsBEToNat 58 ds := by
        rw [hds]
        have hlen2 : ds2.length = 41 := by
          rw [hds] at hdslen
          simpa using hdslen
        calc (256 : Nat) ^ 30 ≤ 58 ^ 41 := pow58_41_ge
          _ = 58 ^ ds2.length := by rw [hlen2]
          _ ≤ digitsBEToNat 58 (d :: ds2) := digitsBEToNat_head_lower d ds2 hd1
      have hblen : 31 ≤ (natToBytesBE (digitsBEToNat 58 ds)).length :=
        bytesBE_length_ge _ hv
      have hdec : base58DecodeBytes addr = some (natToBytesBE (digitsBEToNat 58 ds)) := by
        unfold base58DecodeBytes
        rw [hmv]
        simp only
        rw [hzeros]
        simp
      set bytes := natToBytesBE (digitsBEToNat 58 ds) with hbytes
      have hchk : bs58checkDecode sha256 addr
          = if bytes.drop (bytes.length - 4)
                = sha256dChecksum sha256 (bytes.take (bytes.length - 4)) then
              some (bytes.take (bytes.length - 4))
            else none := by
        unfold bs58checkDecode
        rw [hdec]
        simp only
        rw [if_pos (by omega)]
      unfold p2pkhHashFromAddress
      rw [← haddr2, hchk]
      by_cases hcheck : bytes.drop (bytes.length - 4)
          = sha256dChecksum sha256 (bytes.take (bytes.length - 4))
      · rw [if_pos hcheck]
        have hplen : (bytes.take (bytes.length - 4)).length = bytes.length - 4 := by
          rw [List.length_take]
          omega
        rcases hpay : bytes.take (bytes.length - 4) with _ | ⟨ver, rest2⟩
        · simp
        · rw [hpay] at hplen
          have hrlen : rest2.length = bytes.length - 5 := by
            simp at hplen
            omega
          simp only
          rw [if_neg]
          rintro ⟨_, h20⟩
          omega
      · rw [if_neg hcheck]

/-! ## The repository address converters (C10) -/

/-- publicKeyHashToAddress of BitcoinAddressConverter: a P2WPKH address
when the witness flag is set and a P2PKH address otherwise, for the network
resolved by toBitcoinJsLibNetwork.  The network parameters (version bytes
and bech32 prefixes) come from the underlying Bitcoin library. -/
def publicKeyHashToAddress (sha256 : List Nat → List Nat)
    (publicKeyHash : List Nat) (segwit : Bool) (network : Network) : List Nat :=
  if segwit then p2wpkhAddressOf network publicKeyHash
  else p2pkhAddressOf sha256 network publicKeyHash

/-- addressToPublicKeyHash of BitcoinAddressConverter: try extracting the
hash from a P2PKH address, then from a P2WPKH address, and fail if both
attempts fail. -/
def addressToPublicKeyHash (sha256 : List Nat → List Nat) (addr : List Nat)
    (network : Network) : Option (List Nat) :=
  match p2pkhHashFromAddress sha256 network addr with
  | some h => some h
  | none =>
    match p2wpkhHashFromAddress network addr with
    | some h => some h
    | none => none

/-- C10: for every 20-byte public key hash, supported network and witness
flag, decoding the address produced by publicKeyHashToAddress with
addressToPublicKeyHash on the same network returns exactly the hash, for
both the P2WPKH and the P2PKH encodings. -/
theorem c10_address_roundtrip (sha256 : List Nat → List Nat)
    (network : Network) (pubKeyHash : List Nat) (segwit : Bool)
    (hb : ∀ b ∈ pubKeyHash, b < 256) (hlen : pubKeyHash.length = 20)
    (hsha : ∀ x, (sha256 x).length = 32)
    (hshab : ∀ x, ∀ b ∈ sha256 x, b < 256) :
    addressToPublicKeyHash sha256
        (publicKeyHashToAddress sha256 pubKeyHash segwit network) network
      = some pubKeyHash := by
  cases segwit
  · unfold publicKeyHashToAddress addressToPublicKeyHash
    simp only [Bool.false_eq_true, ite_false]
    rw [p2pkh_roundtrip sha256 network pubKeyHash hb hlen hsha hshab]
  · unfold publicKeyHashToAddress addressToPublicKeyHash
    simp only [ite_true]
    rw [p2pkh_of_bech32_none sha256 network network pubKeyHash hb hlen]
    rw [p2wpkh_roundtrip network pubKeyHash hb hlen]

/-- C10 witness: the round trip at a concrete hash for both encodings and
both networks, with a constant stand-in for SHA-256. -/
theorem c10_address_roundtrip_witness :
    addressToPublicKeyHash (fun _ => List.replicate 32 1)
        (publicKeyHashToAddress (fun _ => List.replicate 32 1)
          (List.replicate 20 2) true Network.testnet) Network.testnet
      = some (List.replicate 20 2)
    ∧ addressToPublicKeyHash (fun _ => List.replicate 32 1)
        (publicKeyHashToAddress (fun _ => List.replicate 32 1)
          (List.replicate 20 2) false Network.mainnet) Network.mainnet
      = some (List.replicate 20 2) :=
  ⟨c10_address_roundtrip (fun _ => List.replicate 32 1) Network.testnet
    (List.replicate 20 2) true
    (by intro b hb2; rw [List.eq_of_mem_replicate hb2]; norm_num)
    (by simp)
    (fun _ => by simp)
    (by intro x b hb2; rw [List.eq_of_mem_replicate hb2]; norm_num),
   c10_address_roundtrip (fun _ => List.replicate 32 1) Network.mainnet
    (List.replicate 20 2) false
    (by intro b hb2; rw [List.eq_of_mem_replicate hb2]; norm_num)
    (by simp)
    (fun _ => by simp)
    (by intro x b hb2; rw [List.eq_of_mem_replicate hb2]; norm_num)⟩

end TbtcSpec
